import Mathlib

/-!
# Verification of the git-context configuration merge and git-config codec

A shallow embedding, in Lean 4, of the profile store and git-config codec of
the `git-context` repository:

* `internal/config` (file `config.go`, two revisions): `Profile`, `Config`,
  `AddProfile`, `Merge`, `mergeMap`, and the section registry
  `ConfigSections` / `GetSection` / `SetSection` from `sections.go`;
* `internal/git/git.go`: `parseGitConfig` and `buildGitConfig`;
* `cmd/switch.go`: `profileToGitConfig` and `addSectionToConfigRecursive`.

Go strings are embedded as `List Char` (`Str`); the Go `strings` library
functions used by the code (`TrimSpace`, `Split`, `SplitN`, `Join`,
`HasPrefix`, `HasSuffix`, `TrimPrefix`, `TrimSuffix`, `LastIndex`,
`Contains`) are defined below on `Str`, following their documented
semantics.  Go maps are embedded as association lists (`GoMap`): assignment
`m[k] = v` is `goUpsert`, access `m[k]` is `lookupGo`, and `range` is list
traversal; a list with `Nodup` keys denotes a Go map.
-/

set_option maxHeartbeats 1000000

/-- Go strings, embedded as lists of characters. -/
abbrev Str : Type := List Char

/-- Converts a Lean string literal to its `Str` embedding. -/
def str (s : String) : Str := s.data

/-- The characters treated as white space by Go `unicode.IsSpace`
(restricted to the ASCII range, which is all the code ever feeds it). -/
def goIsSpace (c : Char) : Bool :=
  c = ' ' || c = '\t' || c = '\n' || Char.ofNat 11 = c || Char.ofNat 12 = c || c = '\r'

/-- Drops leading white space: the left half of Go `strings.TrimSpace`. -/
def goTrimLeft : Str → Str
  | [] => []
  | c :: t => if goIsSpace c then goTrimLeft t else c :: t

/-- Drops trailing white space: the right half of Go `strings.TrimSpace`. -/
def goTrimRight (s : Str) : Str := (goTrimLeft s.reverse).reverse

/-- Go `strings.TrimSpace`. -/
def goTrimSpace (s : Str) : Str := goTrimRight (goTrimLeft s)

/-- Go `strings.Split(s, sep)` for a one-character separator `c`:
splits around every occurrence of `c`, keeping empty segments. -/
def goSplitChar (c : Char) : Str → List Str
  | [] => [[]]
  | d :: t =>
    if d = c then [] :: goSplitChar c t
    else
      match goSplitChar c t with
      | [] => [[d]]
      | h :: r => (d :: h) :: r

/-- Go `strings.Join(l, sep)`. -/
def goJoin : List Str → Str → Str
  | [], _ => []
  | [x], _ => x
  | x :: y :: t, sep => x ++ sep ++ goJoin (y :: t) sep

/-- Go `strings.Contains(s, sub)` for a one-character substring `c`. -/
def goContains (s : Str) (c : Char) : Bool := s.any (fun d => d = c)

/-- Go `strings.HasPrefix(s, p)`. -/
def goHasPref : Str → Str → Bool
  | _, [] => true
  | [], _ :: _ => false
  | c :: s, d :: p => c = d && goHasPref s p

/-- Go `strings.HasSuffix(s, p)`. -/
def goHasSuf (s p : Str) : Bool := goHasPref s.reverse p.reverse

/-- Go `strings.TrimPrefix(s, p)`: drops one leading copy of `p` if present. -/
def goTrimPref (s p : Str) : Str := if goHasPref s p then s.drop p.length else s

/-- Go `strings.TrimSuffix(s, p)`: drops one trailing copy of `p` if present. -/
def goTrimSuf (s p : Str) : Str :=
  if goHasSuf s p then s.take (s.length - p.length) else s

/-- Go `strings.SplitN(s, sep, 2)` for a one-character separator: splits at
the first occurrence of `c` into the two surrounding parts, or returns the
whole string when `c` does not occur. -/
def goSplitN2 (s : Str) (c : Char) : List Str :=
  if goContains s c then
    [s.takeWhile (fun d => d ≠ c), (s.dropWhile (fun d => d ≠ c)).drop 1]
  else [s]

/-- Go `strings.LastIndex(s, sub)` for a one-character substring: index of the
last occurrence, or `none` where Go returns `-1`. -/
def goLastIdx (s : Str) (c : Char) : Option Nat :=
  match s.reverse.findIdx? (fun d => d = c) with
  | none => none
  | some j => some (s.length - 1 - j)

/-- A Go map embedded as an association list; a list with `Nodup` keys
denotes a Go `map[string]α`. -/
abbrev GoMap (α : Type) : Type := List (Str × α)

/-- Go map access `m[k]` (comma-ok form): the value stored at `k`, if any. -/
def lookupGo {α : Type} : GoMap α → Str → Option α
  | [], _ => none
  | (k', v) :: t, k => if k' = k then some v else lookupGo t k

/-- Go map assignment `m[k] = v`: replaces the binding of `k` in place, or
appends a fresh binding. -/
def goUpsert {α : Type} : GoMap α → Str → α → GoMap α
  | [], k, v => [(k, v)]
  | (k', v') :: t, k, v =>
    if k' = k then (k, v) :: t else (k', v') :: goUpsert t k v

/-- The key set of an embedded Go map. -/
def goKeys {α : Type} (m : GoMap α) : List Str := m.map Prod.fst

/-- An association list denotes a Go map when its keys are distinct. -/
def WFMap {α : Type} (m : GoMap α) : Prop := (goKeys m).Nodup

instance {α : Type} (m : GoMap α) : Decidable (WFMap m) := by
  unfold WFMap; infer_instance

theorem lookupGo_goUpsert {α : Type} (m : GoMap α) (k : Str) (v : α) (k' : Str) :
    lookupGo (goUpsert m k v) k' = if k = k' then some v else lookupGo m k' := by
  induction m with
  | nil => simp [goUpsert, lookupGo]
  | cons hd t ih =>
    obtain ⟨k0, v0⟩ := hd
    by_cases h0 : k0 = k
    · subst h0
      by_cases h1 : k0 = k' <;> simp [goUpsert, lookupGo, h1]
    · by_cases h1 : k0 = k'
      · subst h1
        have : ¬ k = k0 := fun h => h0 h.symm
        simp [goUpsert, lookupGo, h0, this]
      · simp [goUpsert, lookupGo, h0, h1, ih]

theorem lookupGo_append {α : Type} (a b : GoMap α) (k : Str) :
    lookupGo (a ++ b) k = (lookupGo a k).orElse (fun _ => lookupGo b k) := by
  induction a with
  | nil => simp [lookupGo]
  | cons hd t ih =>
    obtain ⟨k0, v0⟩ := hd
    by_cases h : k0 = k <;> simp [lookupGo, h, ih]

theorem lookupGo_foldl_goUpsert {α : Type} (l : GoMap α) (m : GoMap α) (k : Str) :
    lookupGo (l.foldl (fun acc kv => goUpsert acc kv.1 kv.2) m) k =
      (lookupGo l.reverse k).orElse (fun _ => lookupGo m k) := by
  induction l generalizing m with
  | nil => simp [lookupGo]
  | cons hd t ih =>
    obtain ⟨k0, v0⟩ := hd
    simp only [List.foldl_cons, List.reverse_cons]
    rw [ih, lookupGo_append]
    by_cases h : k0 = k
    · subst h
      cases hres : lookupGo t.reverse k0 <;>
        simp [lookupGo_goUpsert, lookupGo, Option.orElse]
    · cases hres : lookupGo t.reverse k <;>
        simp [lookupGo_goUpsert, lookupGo, h, Option.orElse]

theorem lookupGo_eq_none {α : Type} (m : GoMap α) (k : Str) (h : k ∉ goKeys m) :
    lookupGo m k = none := by
  induction m with
  | nil => rfl
  | cons hd t ih =>
    obtain ⟨k0, v0⟩ := hd
    simp only [goKeys, List.map_cons, List.mem_cons, not_or] at h
    have h1 : ¬ k0 = k := fun he => h.1 he.symm
    simp [lookupGo, h1, ih h.2]

/-- With distinct keys, first-match lookup ignores traversal order. -/
theorem lookupGo_reverse {α : Type} (m : GoMap α) (hm : WFMap m) (k : Str) :
    lookupGo m.reverse k = lookupGo m k := by
  induction m with
  | nil => rfl
  | cons hd t ih =>
    obtain ⟨k0, v0⟩ := hd
    simp only [WFMap, goKeys, List.map_cons, List.nodup_cons] at hm
    have hk0 : k0 ∉ goKeys t := hm.1
    have ht : WFMap t := hm.2
    rw [List.reverse_cons, lookupGo_append, ih ht]
    by_cases h : k0 = k
    · subst h
      rw [lookupGo_eq_none t k0 hk0]
      simp [lookupGo, Option.orElse]
    · cases hres : lookupGo t k <;> simp [lookupGo, h, hres, Option.orElse]

/-!
## The git-config codec (`internal/git/git.go`)

`parseGitConfig` and `buildGitConfig`, translated line by line.  The codec's
values are embedded as `Str`: `buildGitConfig` renders values with
`fmt.Sprintf("%v", v)`, which is the identity on strings, and every claim
about the codec concerns string-valued mappings.
-/

/-- The loop body of `parseGitConfig`: walks the lines, carrying the current
section name and the accumulated flat mapping. -/
def parseLoop : Str → GoMap Str → List Str → GoMap Str
  | _, config, [] => config
  | curSec, config, rawLine :: rest =>
    let line := goTrimSpace rawLine
    if line = [] || goHasPref line (str "#") || goHasPref line (str ";") then
      parseLoop curSec config rest
    else if goHasPref line (str "[") && goHasSuf line (str "]") then
      parseLoop (goTrimSuf (goTrimPref line (str "[")) (str "]")) config rest
    else if goContains line '=' then
      match goSplitN2 line '=' with
      | [p0, p1] =>
        parseLoop curSec
          (goUpsert config (curSec ++ str "." ++ goTrimSpace p0) (goTrimSpace p1)) rest
      | _ => parseLoop curSec config rest
    else parseLoop curSec config rest

/-- `parseGitConfig` from `internal/git/git.go`: splits the content on
newlines and folds `parseLoop` from an empty section and empty map. -/
def parseGitConfig (content : Str) : GoMap Str :=
  parseLoop [] [] (goSplitChar '\n' content)

/-- The per-key destination computed by the grouping loop of
`buildGitConfig`: `some (section, keyName)` when the key is kept, `none` when
the key is silently dropped (the `continue` branches). -/
def buildDest (key : Str) : Option (Str × Str) :=
  if goContains key '"' then
    match goLastIdx key '.' with
    | some lastDotIdx =>
      if 0 < lastDotIdx then some (key.take lastDotIdx, key.drop (lastDotIdx + 1))
      else none
    | none => none
  else
    let parts := goSplitChar '.' key
    if 2 ≤ parts.length then
      some (goJoin parts.dropLast (str "."), parts.getD (parts.length - 1) [])
    else none

/-- `sectionMap[section][keyName] = value` in `buildGitConfig`, including the
`make` of a fresh inner map when the section is new. -/
def goUpsertSec (sm : List (Str × GoMap Str)) (sec keyName : Str) (v : Str) :
    List (Str × GoMap Str) :=
  match sm with
  | [] => [(sec, goUpsert [] keyName v)]
  | (s, inner) :: t =>
    if s = sec then (s, goUpsert inner keyName v) :: t
    else (s, inner) :: goUpsertSec t sec keyName v

/-- The grouping loop of `buildGitConfig`: keys grouped by section. -/
def buildSectionMap (config : GoMap Str) : List (Str × GoMap Str) :=
  config.foldl
    (fun sm kv =>
      match buildDest kv.1 with
      | some (sec, keyName) => goUpsertSec sm sec keyName kv.2
      | none => sm)
    []

/-- The output loop of `buildGitConfig`: one `[section]` line, then one
indented `key = value` line per entry, then a blank line. -/
def renderBlock (sec : Str) (vals : GoMap Str) : Str :=
  (str "[" ++ sec ++ str "]" ++ str "\n")
    ++ vals.foldl (fun acc kv => acc ++ (str "\t" ++ kv.1 ++ str " = " ++ kv.2 ++ str "\n")) []
    ++ str "\n"

/-- `buildGitConfig` from `internal/git/git.go`. -/
def buildGitConfig (config : GoMap Str) : Str :=
  (buildSectionMap config).foldl (fun content b => content ++ renderBlock b.1 b.2) []

example :
    parseGitConfig (str "[user]\n\tname = A\n\temail = a@b.com\n") =
      [(str "user.name", str "A"), (str "user.email", str "a@b.com")] := by decide

example :
    buildGitConfig [(str "user.name", str "A")] = str "[user]\n\tname = A\n\n" := by decide

example : buildGitConfig [(str ".\"x", str "v")] = str "" := by decide

example : parseGitConfig (str "name = A") = [(str ".name", str "A")] := by decide

example :
    buildGitConfig [(str "url \"ssh://x/\".insteadOf", str "https://x/")] =
      str "[url \"ssh://x/\"]\n\tinsteadOf = https://x/\n\n" := by decide

/-! ### Support lemmas about the embedded Go string primitives -/

theorem goSplitChar_ne_nil (c : Char) (s : Str) : goSplitChar c s ≠ [] := by
  cases s with
  | nil => simp [goSplitChar]
  | cons d t =>
    by_cases h : d = c
    · simp [goSplitChar, h]
    · simp only [goSplitChar, h, if_false]
      cases goSplitChar c t <;> simp

theorem goContains_iff (s : Str) (c : Char) : goContains s c = true ↔ c ∈ s := by
  constructor
  · intro h
    obtain ⟨d, hd, he⟩ := List.any_eq_true.mp h
    exact (decide_eq_true_eq.mp he) ▸ hd
  · intro h
    exact List.any_eq_true.mpr ⟨c, h, by simp⟩

theorem goContains_eq_false (s : Str) (c : Char) : goContains s c = false ↔ c ∉ s := by
  rw [← Bool.not_eq_true, not_iff_not, goContains_iff]

theorem goSplitChar_eq_single (c : Char) (s : Str) (h : goContains s c = false) :
    goSplitChar c s = [s] := by
  induction s with
  | nil => rfl
  | cons d t ih =>
    have hd : ¬ d = c := by
      intro he; rw [goContains_eq_false] at h; exact h (he ▸ List.mem_cons_self d t)
    have ht : goContains t c = false := by
      rw [goContains_eq_false] at h ⊢; exact fun hm => h (List.mem_cons_of_mem d hm)
    simp [goSplitChar, hd, ih ht]

theorem goSplitChar_append (c : Char) (a b : Str) :
    goSplitChar c (a ++ c :: b) = goSplitChar c a ++ goSplitChar c b := by
  induction a with
  | nil => simp [goSplitChar]
  | cons d t ih =>
    by_cases hd : d = c
    · simp [goSplitChar, hd, ih]
    · simp only [List.cons_append, goSplitChar, hd, if_false, List.append_eq]
      rw [ih]
      cases hsp : goSplitChar c t with
      | nil => exact absurd hsp (goSplitChar_ne_nil c t)
      | cons h r => simp

theorem goJoin_goSplitChar (c : Char) (s : Str) : goJoin (goSplitChar c s) [c] = s := by
  induction s with
  | nil => rfl
  | cons d t ih =>
    by_cases hd : d = c
    · subst hd
      simp only [goSplitChar, if_pos rfl]
      cases hsp : goSplitChar d t with
      | nil => exact absurd hsp (goSplitChar_ne_nil d t)
      | cons h r =>
        rw [hsp] at ih
        simp [goJoin, ih]
    · simp only [goSplitChar, hd, if_false]
      cases hsp : goSplitChar c t with
      | nil => exact absurd hsp (goSplitChar_ne_nil c t)
      | cons h r =>
        rw [hsp] at ih
        cases r with
        | nil => simpa [goJoin] using congrArg (d :: ·) ih
        | cons r0 rt => simpa [goJoin] using congrArg (d :: ·) ih

theorem findIdx?_append_first {p : Char → Bool} (s t : Str) (c : Char)
    (h : ∀ d ∈ s, p d = false) (hc : p c = true) :
    (s ++ c :: t).findIdx? p = some s.length := by
  induction s with
  | nil => simp [List.findIdx?_cons, hc]
  | cons d s ih =>
    have hd : p d = false := h d (List.mem_cons_self d s)
    have hs : ∀ d' ∈ s, p d' = false := fun d' hm => h d' (List.mem_cons_of_mem d hm)
    simp [List.findIdx?_cons, hd, ih hs]

theorem goLastIdx_decomp (c : Char) (a b : Str) (hb : goContains b c = false) :
    goLastIdx (a ++ c :: b) c = some a.length := by
  have hb' : ∀ d ∈ b.reverse, (decide (d = c) : Bool) = false := by
    intro d hd
    rw [List.mem_reverse] at hd
    have : ¬ d = c := fun he => (goContains_eq_false b c).mp hb (he ▸ hd)
    simpa using this
  have : (a ++ c :: b).reverse = b.reverse ++ c :: a.reverse := by simp
  rw [goLastIdx, this, findIdx?_append_first b.reverse a.reverse c hb' (by simp)]
  simp only [List.length_append, List.length_cons, List.length_reverse]
  congr 1
  omega

theorem goLastIdx_none (c : Char) (s : Str) (h : goContains s c = false) :
    goLastIdx s c = none := by
  have : ∀ d ∈ s.reverse, (decide (d = c) : Bool) = false := by
    intro d hd
    rw [List.mem_reverse] at hd
    have : ¬ d = c := fun he => (goContains_eq_false s c).mp h (he ▸ hd)
    simpa using this
  rw [goLastIdx, List.findIdx?_eq_none_iff.mpr this]

theorem goHasPref_single (line : Str) (c : Char) :
    goHasPref line [c] = true ↔ line.head? = some c := by
  cases line with
  | nil => simp [goHasPref]
  | cons d t => simp [goHasPref]

theorem goHasSuf_single (line : Str) (c : Char) :
    goHasSuf line [c] = true ↔ line.getLast? = some c := by
  rw [goHasSuf, ← List.head?_reverse]
  have : ([c] : Str).reverse = [c] := rfl
  rw [this, goHasPref_single]

theorem header_shape (line : Str) (h1 : goHasPref line (str "[") = true)
    (h2 : goHasSuf line (str "]") = true) :
    ∃ mid : Str, line = '[' :: mid ++ [']'] := by
  have h1' : line.head? = some '[' := (goHasPref_single line '[').mp h1
  have h2' : line.getLast? = some ']' := (goHasSuf_single line ']').mp h2
  cases line with
  | nil => simp at h1'
  | cons d t =>
    have hd : d = '[' := by simpa using h1'
    subst hd
    cases t with
    | nil => simp [List.getLast?] at h2'
    | cons e u =>
      refine ⟨(e :: u).dropLast, ?_⟩
      have := List.dropLast_append_getLast? ']' h2'
      simp only [List.dropLast_cons₂] at this ⊢
      exact this.symm

theorem goTrimPref_cons (c : Char) (rest : Str) :
    goTrimPref (c :: rest) [c] = rest := by
  simp [goTrimPref, goHasPref]

theorem goTrimSuf_concat (mid : Str) (c : Char) :
    goTrimSuf (mid ++ [c]) [c] = mid := by
  have h : goHasSuf (mid ++ [c]) [c] = true := by
    rw [goHasSuf_single]; simp
  simp [goTrimSuf, h, List.take_left]

theorem getLast?_cons_append_one (l : List Char) : ∀ (a : Char) (c : Char),
    (a :: (l ++ [c])).getLast? = some c := by
  induction l with
  | nil => intro a c; rfl
  | cons d t ih => intro a c; simpa [List.getLast?_cons_cons] using ih d c

theorem parseLoop_line_cases (lines : List Str) : ∀ (curSec : Str) (cfg : GoMap Str),
    parseLoop curSec cfg lines =
      (lines.foldl
        (fun st rawLine =>
          let line := goTrimSpace rawLine
          if line = [] ∨ goHasPref line (str "#") = true ∨ goHasPref line (str ";") = true then
            st
          else if line.head? = some '[' ∧ line.getLast? = some ']' then
            ((line.drop 1).dropLast, st.2)
          else if goContains line '=' = true then
            (st.1,
              goUpsert st.2
                (st.1 ++ str "." ++ goTrimSpace (line.takeWhile (fun d => d ≠ '=')))
                (goTrimSpace ((line.dropWhile (fun d => d ≠ '=')).drop 1)))
          else st)
        (curSec, cfg)).2 := by
  induction lines with
  | nil => intro curSec cfg; rfl
  | cons rawLine rest ih =>
    intro curSec cfg
    simp only [List.foldl_cons]
    by_cases h1 : goTrimSpace rawLine = [] ∨
        goHasPref (goTrimSpace rawLine) (str "#") = true ∨
        goHasPref (goTrimSpace rawLine) (str ";") = true
    · have hb : (decide (goTrimSpace rawLine = []) ||
          goHasPref (goTrimSpace rawLine) (str "#") ||
          goHasPref (goTrimSpace rawLine) (str ";")) = true := by
        rcases h1 with h | h | h <;> simp [h]
      rw [parseLoop]
      simp only [hb, if_true, h1]
      rw [ih]
    · have hb : (decide (goTrimSpace rawLine = []) ||
          goHasPref (goTrimSpace rawLine) (str "#") ||
          goHasPref (goTrimSpace rawLine) (str ";")) = false := by
        push_neg at h1
        simp [h1.1, h1.2.1, h1.2.2]
      rw [parseLoop]
      simp only [hb, Bool.false_eq_true, if_false, h1]
      by_cases h2 : goHasPref (goTrimSpace rawLine) (str "[") = true ∧
          goHasSuf (goTrimSpace rawLine) (str "]") = true
      · obtain ⟨mid, hmid⟩ := header_shape (goTrimSpace rawLine) h2.1 h2.2
        have hb2 : (goHasPref (goTrimSpace rawLine) (str "[") &&
            goHasSuf (goTrimSpace rawLine) (str "]")) = true := by
          simp [h2.1, h2.2]
        have hhd : (goTrimSpace rawLine).head? = some '[' := by rw [hmid]; rfl
        have hlast : (goTrimSpace rawLine).getLast? = some ']' := by
          rw [hmid]
          exact getLast?_cons_append_one mid '[' ']'
        have hsec : goTrimSuf (goTrimPref (goTrimSpace rawLine) (str "[")) (str "]") =
            ((goTrimSpace rawLine).drop 1).dropLast := by
          rw [hmid]
          show goTrimSuf (goTrimPref ('[' :: (mid ++ [']'])) ['[']) [']'] = _
          rw [goTrimPref_cons, goTrimSuf_concat]
          simp
        simp only [hb2, if_true, hhd, hlast, and_self, hsec]
        rw [ih]
      · have hb2 : (goHasPref (goTrimSpace rawLine) (str "[") &&
            goHasSuf (goTrimSpace rawLine) (str "]")) = false := by
          rcases Decidable.not_and_iff_or_not.mp h2 with h | h <;>
            simp [Bool.eq_false_iff, h]
        have hc2 : ¬ ((goTrimSpace rawLine).head? = some '[' ∧
            (goTrimSpace rawLine).getLast? = some ']') := by
          intro hc
          exact h2 ⟨(goHasPref_single _ '[').mpr hc.1, (goHasSuf_single _ ']').mpr hc.2⟩
        simp only [hb2, Bool.false_eq_true, if_false, hc2]
        by_cases h3 : goContains (goTrimSpace rawLine) '=' = true
        · have hsp : goSplitN2 (goTrimSpace rawLine) '=' =
              [(goTrimSpace rawLine).takeWhile (fun d => d ≠ '='),
                ((goTrimSpace rawLine).dropWhile (fun d => d ≠ '=')).drop 1] := by
            simp [goSplitN2, h3]
          simp only [h3, if_true, hsp]
          rw [ih]
        · have h3' : goContains (goTrimSpace rawLine) '=' = false :=
            Bool.eq_false_iff.mpr h3
          simp only [h3', Bool.false_eq_true, if_false, h3]
          rw [ih]

/-- C4: `parseGitConfig` processes its input line by line: blank and
comment lines (`#`, `;`) contribute nothing; a `[section]` line (first
character `[`, last character `]`) sets the current section to the text
between the brackets; a line containing `=` is split on the first `=` into a
key and a value, both trimmed, and recorded under
`currentSection ++ "." ++ key`; no other entries appear.  Lines are
classified on their whitespace-trimmed form, as the claim's own trimming
language indicates. -/
theorem parse_processes_line_by_line (content : Str) :
    parseGitConfig content =
      ((goSplitChar '\n' content).foldl
        (fun st rawLine =>
          let line := goTrimSpace rawLine
          if line = [] ∨ goHasPref line (str "#") = true ∨ goHasPref line (str ";") = true then
            st
          else if line.head? = some '[' ∧ line.getLast? = some ']' then
            ((line.drop 1).dropLast, st.2)
          else if goContains line '=' = true then
            (st.1,
              goUpsert st.2
                (st.1 ++ str "." ++ goTrimSpace (line.takeWhile (fun d => d ≠ '=')))
                (goTrimSpace ((line.dropWhile (fun d => d ≠ '=')).drop 1)))
          else st)
        (([], []) : Str × GoMap Str)).2 :=
  parseLoop_line_cases (goSplitChar '\n' content) [] []

/-- C5 (counterexample): a key=value line before any section header is not
dropped; parsing `"name = A"` yields the entry `".name" ↦ "A"`, a non-empty
result. -/
theorem parse_preheader_not_dropped :
    parseGitConfig (str "name = A") = [(str ".name", str "A")] ∧
      parseGitConfig (str "name = A") ≠ [] := by
  constructor
  · decide
  · decide

/-- C5 (amended): a key=value line occurring before any section header is
recorded under the empty section prefix: its key in the result is
`"." ++ key` (with key and value trimmed as usual). -/
theorem parse_preheader_empty_sec (line : Str)
    (hnl : goContains line '\n' = false)
    (h0 : ¬ (goTrimSpace line = [] ∨ goHasPref (goTrimSpace line) (str "#") = true ∨
        goHasPref (goTrimSpace line) (str ";") = true))
    (h1 : ¬ (goHasPref (goTrimSpace line) (str "[") = true ∧
        goHasSuf (goTrimSpace line) (str "]") = true))
    (h2 : goContains (goTrimSpace line) '=' = true) :
    parseGitConfig line =
      [(str "." ++ goTrimSpace ((goTrimSpace line).takeWhile (fun d => d ≠ '=')),
        goTrimSpace (((goTrimSpace line).dropWhile (fun d => d ≠ '=')).drop 1))] := by
  have hb : (decide (goTrimSpace line = []) || goHasPref (goTrimSpace line) (str "#") ||
      goHasPref (goTrimSpace line) (str ";")) = false := by
    push_neg at h0
    simp [h0.1, h0.2.1, h0.2.2]
  have hb2 : (goHasPref (goTrimSpace line) (str "[") &&
      goHasSuf (goTrimSpace line) (str "]")) = false := by
    rcases Decidable.not_and_iff_or_not.mp h1 with h | h <;>
      simp [Bool.eq_false_iff, h]
  have hsp : goSplitN2 (goTrimSpace line) '=' =
      [(goTrimSpace line).takeWhile (fun d => d ≠ '='),
        ((goTrimSpace line).dropWhile (fun d => d ≠ '=')).drop 1] := by
    simp [goSplitN2, h2]
  rw [parseGitConfig, goSplitChar_eq_single '\n' line hnl, parseLoop]
  simp only [hb, Bool.false_eq_true, if_false, hb2, h2, if_true, hsp]
  rfl

/-- Witness for the amended C5 theorem, at the line `"name = A"`. -/
theorem parse_preheader_empty_sec_witness :
    parseGitConfig (str "name = A") = [(str ".name", str "A")] :=
  (parse_preheader_empty_sec (str "name = A") (by decide) (by decide) (by decide)
    (by decide)).trans (by decide)

/-- C6 (counterexample): the key `."x` contains a quote character and a dot,
so the claim would split it at its last dot into section `""` and leaf `"x`
and emit a block for it; the code instead drops it (`lastDotIdx > 0` fails)
and `buildGitConfig` returns the empty string. -/
theorem build_quoted_leading_dot_dropped :
    goContains (str ".\"x") '"' = true ∧ goContains (str ".\"x") '.' = true ∧
      buildGitConfig [(str ".\"x", str "v")] = str "" := by
  refine ⟨by decide, by decide, by decide⟩

theorem drop_append_cons (a : Str) (x : Char) (b : Str) :
    (a ++ x :: b).drop (a.length + 1) = b := by
  induction a with
  | nil => rfl
  | cons d t ih => simpa using ih

theorem getD_append_length (sa : List Str) (b : Str) :
    (sa ++ [b]).getD sa.length [] = b := by
  induction sa with
  | nil => rfl
  | cons d t ih => simpa using ih

theorem foldl_append_eq_join {β : Type} (f : β → Str) (l : List β) :
    ∀ init : Str, l.foldl (fun acc x => acc ++ f x) init = init ++ (l.map f).flatten := by
  induction l with
  | nil => intro init; simp
  | cons x t ih => intro init; simp [ih, List.append_assoc]

theorem goSplitChar_length_pos (c : Char) (s : Str) : 0 < (goSplitChar c s).length :=
  List.length_pos.mpr (goSplitChar_ne_nil c s)

/-- An unquoted key of the form `a ++ "." ++ b` with `b` dot-free is split by
`buildGitConfig` into section `a` and leaf `b`. -/
theorem buildDest_no_quote (a b : Str) (hb : goContains b '.' = false)
    (hq : goContains (a ++ '.' :: b) '"' = false) :
    buildDest (a ++ '.' :: b) = some (a, b) := by
  rw [buildDest, if_neg (by simp [hq])]
  have hsp : goSplitChar '.' (a ++ '.' :: b) = goSplitChar '.' a ++ [b] := by
    rw [goSplitChar_append, goSplitChar_eq_single '.' b hb]
  have hpos := goSplitChar_length_pos '.' a
  simp only [hsp, List.dropLast_concat, List.length_append, List.length_cons,
    List.length_nil, Nat.add_sub_cancel, getD_append_length, goJoin_goSplitChar]
  rw [if_pos (show 2 ≤ (goSplitChar '.' a).length + (0 + 1) by omega)]
  rw [show (str "." : Str) = ['.'] from rfl, goJoin_goSplitChar]

/-- C6 (amended): `buildGitConfig` key handling and output shape.  A key of
the form `a ++ "." ++ b` with `b` dot-free (so the split is at the last dot):
if it contains a quote it is split into section `a` and leaf `b` only when
`a` is non-empty, and dropped when `a` is empty; without a quote it is always
split into section `a` and leaf `b`; a key with no dot at all is dropped.
The output is one block per grouped section: a `[section]` line followed by
indented `key = value` lines and a blank line. -/
theorem build_key_handling :
    (∀ a b : Str, goContains b '.' = false → a ≠ [] →
        goContains (a ++ '.' :: b) '"' = true →
        buildDest (a ++ '.' :: b) = some (a, b)) ∧
    (∀ b : Str, goContains b '.' = false →
        goContains ('.' :: b) '"' = true →
        buildDest ('.' :: b) = none) ∧
    (∀ a b : Str, goContains b '.' = false →
        goContains (a ++ '.' :: b) '"' = false →
        buildDest (a ++ '.' :: b) = some (a, b)) ∧
    (∀ k : Str, goContains k '.' = false → buildDest k = none) ∧
    (∀ m : GoMap Str, buildGitConfig m =
      ((buildSectionMap m).map
        (fun b => str "[" ++ b.1 ++ str "]" ++ str "\n"
          ++ (b.2.map (fun kv => str "\t" ++ kv.1 ++ str " = " ++ kv.2 ++ str "\n")).flatten
          ++ str "\n")).flatten) := by
  refine ⟨?_, ?_, ?_, ?_, ?_⟩
  · intro a b hb ha hq
    rw [buildDest, if_pos hq, goLastIdx_decomp '.' a b hb]
    show (if 0 < a.length then
        some ((a ++ '.' :: b).take a.length, (a ++ '.' :: b).drop (a.length + 1))
      else none) = some (a, b)
    rw [if_pos (List.length_pos.mpr ha), List.take_left, drop_append_cons]
  · intro b hb hq
    have h0 := goLastIdx_decomp '.' [] b hb
    simp only [List.nil_append, List.length_nil] at h0
    rw [buildDest, if_pos hq, h0]
    simp
  · intro a b hb hq
    exact buildDest_no_quote a b hb hq
  · intro k hk
    rw [buildDest]
    by_cases hq : goContains k '"' = true
    · rw [if_pos hq, goLastIdx_none '.' k hk]
    · rw [if_neg hq, goSplitChar_eq_single '.' k hk]
      simp
  · intro m
    rw [buildGitConfig, foldl_append_eq_join]
    rw [List.nil_append]
    refine congrArg List.flatten (List.map_congr_left ?_)
    intro b _
    rw [renderBlock, foldl_append_eq_join]
    simp [List.append_assoc]

/-- Witness for the amended C6 theorem: the quoted-subsection key
`url "p".insteadOf` is split into section `url "p"` and leaf `insteadOf`. -/
theorem build_key_handling_witness :
    buildDest (str "url \"p\"" ++ '.' :: str "insteadOf") =
      some (str "url \"p\"", str "insteadOf") :=
  build_key_handling.1 (str "url \"p\"") (str "insteadOf") (by decide) (by decide)
    (by decide)

/-! ### Trim and split lemmas used for the codec round trip -/

theorem goTrimLeft_length_le (s : Str) : (goTrimLeft s).length ≤ s.length := by
  induction s with
  | nil => simp [goTrimLeft]
  | cons c t ih =>
    by_cases h : goIsSpace c
    · simp only [goTrimLeft, h, if_true]
      exact ih.trans (by simp)
    · simp [goTrimLeft, h]

theorem goTrimLeft_eq_self_of_length (s : Str)
    (h : (goTrimLeft s).length = s.length) : goTrimLeft s = s := by
  cases s with
  | nil => rfl
  | cons c t =>
    by_cases hc : goIsSpace c
    · exfalso
      have hle := goTrimLeft_length_le t
      simp only [goTrimLeft, hc, if_true] at h
      simp only [List.length_cons] at h
      omega
    · simp [goTrimLeft, hc]

theorem goTrimLeft_of_trimSpace (s : Str) (h : goTrimSpace s = s) :
    goTrimLeft s = s := by
  have h1 : (goTrimRight (goTrimLeft s)).length = s.length := by
    rw [← goTrimSpace]; rw [h]
  have h2 : (goTrimRight (goTrimLeft s)).length ≤ (goTrimLeft s).length := by
    rw [goTrimRight, List.length_reverse]
    exact (goTrimLeft_length_le _).trans (by simp)
  have h3 := goTrimLeft_length_le s
  exact goTrimLeft_eq_self_of_length s (by omega)

theorem goTrimRight_of_trimSpace (s : Str) (h : goTrimSpace s = s) :
    goTrimRight s = s := by
  have hl := goTrimLeft_of_trimSpace s h
  rw [goTrimSpace, hl] at h
  exact h

theorem goTrimLeft_append (l rest : Str) (hne : l ≠ []) (hl : goTrimLeft l = l) :
    goTrimLeft (l ++ rest) = l ++ rest := by
  cases l with
  | nil => exact absurd rfl hne
  | cons c t =>
    have hc : ¬ goIsSpace c = true := by
      intro hc
      have : goTrimLeft (c :: t) = goTrimLeft t := by simp [goTrimLeft, hc]
      rw [this] at hl
      have := goTrimLeft_length_le t
      have := congrArg List.length hl
      simp at this
      omega
    simp [goTrimLeft, hc]

theorem goTrimRight_append (x v : Str) (hne : v ≠ []) (hv : goTrimRight v = v) :
    goTrimRight (x ++ v) = x ++ v := by
  have hvr : goTrimLeft v.reverse = v.reverse := by
    have := congrArg List.reverse hv
    rwa [goTrimRight, List.reverse_reverse] at this
  have hvne : v.reverse ≠ [] := by simpa using hne
  rw [goTrimRight, List.reverse_append, goTrimLeft_append v.reverse x.reverse hvne hvr]
  simp

theorem takeWhile_append_all (p : Char → Bool) (l rest : Str)
    (h : ∀ c ∈ l, p c = true) :
    (l ++ rest).takeWhile p = l ++ rest.takeWhile p := by
  induction l with
  | nil => simp
  | cons c t ih =>
    have hc := h c (List.mem_cons_self c t)
    simp only [List.cons_append, List.takeWhile_cons, hc, if_true]
    rw [ih (fun d hd => h d (List.mem_cons_of_mem c hd))]

theorem dropWhile_append_all (p : Char → Bool) (l rest : Str)
    (h : ∀ c ∈ l, p c = true) :
    (l ++ rest).dropWhile p = rest.dropWhile p := by
  induction l with
  | nil => simp
  | cons c t ih =>
    have hc := h c (List.mem_cons_self c t)
    simp only [List.cons_append, List.dropWhile_cons, hc, if_true]
    exact ih (fun d hd => h d (List.mem_cons_of_mem c hd))

theorem exists_last_split (k : Str) (c : Char) (h : goContains k c = true) :
    ∃ a b : Str, k = a ++ c :: b ∧ goContains b c = false := by
  induction k with
  | nil => simp [goContains] at h
  | cons d t ih =>
    by_cases ht : goContains t c = true
    · obtain ⟨a, b, hab, hb⟩ := ih ht
      exact ⟨d :: a, b, by rw [hab]; rfl, hb⟩
    · have hd : d = c := by
        rw [goContains_iff] at h
        rcases List.mem_cons.mp h with he | hm
        · exact he.symm
        · exact absurd ((goContains_iff t c).mpr hm) ht
      exact ⟨[], t, by rw [hd]; rfl, Bool.eq_false_iff.mpr ht⟩

/-- The last dot-separated component of a key (the leaf key used by
`buildGitConfig` for unquoted keys). -/
def dotLeaf (k : Str) : Str :=
  (goSplitChar '.' k).getD ((goSplitChar '.' k).length - 1) []

theorem dotLeaf_decomp (a b : Str) (hb : goContains b '.' = false) :
    dotLeaf (a ++ '.' :: b) = b := by
  rw [dotLeaf, goSplitChar_append, goSplitChar_eq_single '.' b hb]
  simp only [List.length_append, List.length_cons, List.length_nil, Nat.add_sub_cancel]
  exact getD_append_length _ b

/-- The sanitation a flat-mapping entry needs for the codec round trip: leaf
key and value survive trimming, the leaf is non-empty, contains no `=`, and
does not make the emitted line look like a comment or section header. -/
def CleanKV (l v : Str) : Prop :=
  goTrimSpace l = l ∧ l ≠ [] ∧ goContains l '=' = false ∧
    goHasPref l (str "#") = false ∧ goHasPref l (str ";") = false ∧
    goHasPref l (str "[") = false ∧
    goTrimSpace v = v ∧ v ≠ []

instance (l v : Str) : Decidable (CleanKV l v) := by
  unfold CleanKV; infer_instance

theorem goHasPref_cons_single (c : Char) (t : Str) (d : Char) :
    goHasPref (c :: t) [d] = decide (c = d) := by
  simp [goHasPref]

theorem goTrimSpace_append_space (l : Str) (hne : l ≠ []) (ht : goTrimSpace l = l) :
    goTrimSpace (l ++ [' ']) = l := by
  rw [goTrimSpace, goTrimLeft_append l [' '] hne (goTrimLeft_of_trimSpace l ht)]
  have hrev : goTrimLeft l.reverse = l.reverse := by
    have := congrArg List.reverse (goTrimRight_of_trimSpace l ht)
    rwa [goTrimRight, List.reverse_reverse] at this
  rw [goTrimRight, List.reverse_append]
  show (goTrimLeft (' ' :: l.reverse)).reverse = l
  rw [show goTrimLeft (' ' :: l.reverse) = goTrimLeft l.reverse from by
    simp [goTrimLeft, goIsSpace]]
  rw [hrev, List.reverse_reverse]

theorem goTrimSpace_space_cons (v : Str) (hv : goTrimSpace v = v) :
    goTrimSpace (' ' :: v) = v := by
  rw [goTrimSpace, show goTrimLeft (' ' :: v) = goTrimLeft v from by
    simp [goTrimLeft, goIsSpace]]
  rw [goTrimLeft_of_trimSpace v hv, goTrimRight_of_trimSpace v hv]

/-- Processing one emitted `\t key = value` line of a block: the entry is
recorded under `section ++ "." ++ key` with the original value. -/
theorem parseLoop_kv_line (s l v : Str) (h : CleanKV l v) (L : List Str)
    (cfg : GoMap Str) :
    parseLoop s cfg ((str "\t" ++ l ++ str " = " ++ v) :: L) =
      parseLoop s (goUpsert cfg (s ++ str "." ++ l) v) L := by
  obtain ⟨hlt, hlne, hleq, hlh, hlsemi, hlbr, hvt, hvne⟩ := h
  obtain ⟨c, l', rfl⟩ : ∃ c l', l = c :: l' := by
    cases l with
    | nil => exact absurd rfl hlne
    | cons c l' => exact ⟨c, l', rfl⟩
  have htrim : goTrimSpace (str "\t" ++ (c :: l') ++ str " = " ++ v) =
      (c :: l') ++ str " = " ++ v := by
    have h1 : (str "\t" ++ (c :: l') ++ str " = " ++ v : Str) =
        '\t' :: ((c :: l') ++ (str " = " ++ v)) := by simp [str]
    rw [h1, goTrimSpace]
    rw [show goTrimLeft ('\t' :: ((c :: l') ++ (str " = " ++ v))) =
      goTrimLeft ((c :: l') ++ (str " = " ++ v)) from by simp [goTrimLeft, goIsSpace]]
    rw [goTrimLeft_append (c :: l') _ hlne (goTrimLeft_of_trimSpace _ hlt)]
    rw [show (c :: l') ++ (str " = " ++ v) = ((c :: l') ++ str " = ") ++ v from
      (List.append_assoc _ _ _).symm]
    rw [goTrimRight_append _ v hvne (goTrimRight_of_trimSpace v hvt)]
  have hchash : decide (c = '#') = false := by
    have := hlh
    rwa [show (str "#" : Str) = ['#'] from rfl, goHasPref_cons_single] at this
  have hcsemi : decide (c = ';') = false := by
    have := hlsemi
    rwa [show (str ";" : Str) = [';'] from rfl, goHasPref_cons_single] at this
  have hcbr : decide (c = '[') = false := by
    have := hlbr
    rwa [show (str "[" : Str) = ['['] from rfl, goHasPref_cons_single] at this
  have hcond1 : (decide (((c :: l') ++ str " = " ++ v) = []) ||
      goHasPref ((c :: l') ++ str " = " ++ v) (str "#") ||
      goHasPref ((c :: l') ++ str " = " ++ v) (str ";")) = false := by
    show (decide ((c :: (l' ++ str " = " ++ v)) = []) ||
      goHasPref (c :: (l' ++ str " = " ++ v)) (str "#") ||
      goHasPref (c :: (l' ++ str " = " ++ v)) (str ";")) = false
    rw [show (str "#" : Str) = ['#'] from rfl, show (str ";" : Str) = [';'] from rfl,
      goHasPref_cons_single, goHasPref_cons_single, hchash, hcsemi]
    simp
  have hcond2 : (goHasPref ((c :: l') ++ str " = " ++ v) (str "[") &&
      goHasSuf ((c :: l') ++ str " = " ++ v) (str "]")) = false := by
    show (goHasPref (c :: (l' ++ str " = " ++ v)) (str "[") && _) = false
    rw [show (str "[" : Str) = ['['] from rfl, goHasPref_cons_single, hcbr]
    simp
  have hcont : goContains ((c :: l') ++ str " = " ++ v) '=' = true := by
    rw [goContains_iff]
    rw [show ((c :: l') ++ str " = " ++ v : Str) =
      (c :: l') ++ (' ' :: '=' :: ' ' :: v) from by simp [str]]
    exact List.mem_append_right _ (by simp)
  have hall : ∀ d ∈ (c :: l'), (fun d => decide (d ≠ '=')) d = true := by
    intro d hd
    have : d ≠ '=' := by
      intro he
      exact absurd ((goContains_iff _ '=').mpr (he ▸ hd)) (Bool.eq_false_iff.mp hleq)
    simpa using this
  have htake : ((c :: l') ++ str " = " ++ v).takeWhile (fun d => d ≠ '=') =
      (c :: l') ++ [' '] := by
    rw [show ((c :: l') ++ str " = " ++ v : Str) =
      (c :: l') ++ (' ' :: '=' :: ' ' :: v) from by simp [str]]
    rw [takeWhile_append_all _ _ _ hall]
    rfl
  have hdrop : (((c :: l') ++ str " = " ++ v).dropWhile (fun d => d ≠ '=')).drop 1 =
      ' ' :: v := by
    rw [show ((c :: l') ++ str " = " ++ v : Str) =
      (c :: l') ++ (' ' :: '=' :: ' ' :: v) from by simp [str]]
    rw [dropWhile_append_all _ _ _ hall]
    rfl
  have hsp : goSplitN2 ((c :: l') ++ str " = " ++ v) '=' =
      [(c :: l') ++ [' '], ' ' :: v] := by
    rw [goSplitN2, if_pos hcont, htake, hdrop]
  rw [parseLoop]
  simp only [htrim, hcond1, Bool.false_eq_true, if_false, hcond2, hcont, if_true, hsp]
  rw [goTrimSpace_append_space (c :: l') hlne hlt, goTrimSpace_space_cons v hvt]

/-- One emitted `key = value` line of a block, as `buildGitConfig` writes it. -/
def kvLine (kv : Str × Str) : Str := str "\t" ++ kv.1 ++ str " = " ++ kv.2

/-- The raw lines (without their terminating newlines) of one output block of
`buildGitConfig`: header, key/value lines, blank line. -/
def blockRawLines (s : Str) (vals : GoMap Str) : List Str :=
  ('[' :: (s ++ [']'])) :: (vals.map kvLine ++ [[]])

theorem goTrimSpace_header (s : Str) :
    goTrimSpace ('[' :: (s ++ [']'])) = '[' :: (s ++ [']']) := by
  rw [goTrimSpace, show goTrimLeft ('[' :: (s ++ [']'])) = '[' :: (s ++ [']']) from by
    simp [goTrimLeft, goIsSpace]]
  rw [show ('[' :: (s ++ [']']) : Str) = ('[' :: s) ++ [']'] from by simp]
  rw [goTrimRight_append ('[' :: s) [']'] (by simp) (by simp [goTrimRight, goTrimLeft, goIsSpace])]

/-- Processing the `[section]` header line of a block sets the section. -/
theorem parseLoop_header_line (s : Str) (L : List Str) (sec0 : Str) (cfg : GoMap Str) :
    parseLoop sec0 cfg (('[' :: (s ++ [']'])) :: L) = parseLoop s cfg L := by
  have hne : (decide (('[' :: (s ++ [']'])) = ([] : Str)) ||
      goHasPref ('[' :: (s ++ [']'])) (str "#") ||
      goHasPref ('[' :: (s ++ [']'])) (str ";")) = false := by
    rw [show (str "#" : Str) = ['#'] from rfl, show (str ";" : Str) = [';'] from rfl,
      goHasPref_cons_single, goHasPref_cons_single]
    simp
  have hpref : goHasPref ('[' :: (s ++ [']'])) (str "[") = true := by
    rw [show (str "[" : Str) = ['['] from rfl, goHasPref_cons_single]
    simp
  have hsuf : goHasSuf ('[' :: (s ++ [']'])) (str "]") = true := by
    rw [show (str "]" : Str) = [']'] from rfl, goHasSuf_single]
    exact getLast?_cons_append_one s '[' ']'
  have hsec : goTrimSuf (goTrimPref ('[' :: (s ++ [']'])) (str "[")) (str "]") = s := by
    rw [show (str "[" : Str) = ['['] from rfl, show (str "]" : Str) = [']'] from rfl]
    rw [goTrimPref_cons, goTrimSuf_concat]
  rw [parseLoop]
  simp only [goTrimSpace_header, hne, Bool.false_eq_true, if_false, hpref, hsuf,
    Bool.and_self, if_true, hsec]

/-- Processing a whole block: sets the block's section and records each of its
key/value lines. -/
theorem parseLoop_block (s : Str) (vals : GoMap Str)
    (hvals : ∀ kv ∈ vals, CleanKV kv.1 kv.2) (rest : List Str) (sec0 : Str)
    (cfg : GoMap Str) :
    parseLoop sec0 cfg (blockRawLines s vals ++ rest) =
      parseLoop s
        (vals.foldl (fun c2 kv => goUpsert c2 (s ++ str "." ++ kv.1) kv.2) cfg) rest := by
  rw [blockRawLines]
  rw [List.cons_append, parseLoop_header_line]
  induction vals generalizing cfg with
  | nil =>
    show parseLoop s cfg ([] :: rest) = parseLoop s cfg rest
    rw [parseLoop]
    simp [goTrimSpace, goTrimLeft, goTrimRight]
  | cons kv t ih =>
    have hckv := hvals kv (List.mem_cons_self kv t)
    have ht : ∀ kv' ∈ t, CleanKV kv'.1 kv'.2 :=
      fun kv' hm => hvals kv' (List.mem_cons_of_mem kv hm)
    show parseLoop s cfg ((kvLine kv :: (t.map kvLine ++ [[]])) ++ rest) = _
    rw [List.cons_append, kvLine, parseLoop_kv_line s kv.1 kv.2 hckv]
    exact ih ht _

theorem parseLoop_final_blank (sec : Str) (cfg : GoMap Str) :
    parseLoop sec cfg [[]] = cfg := by
  rw [parseLoop]
  simp [goTrimSpace, goTrimLeft, goTrimRight, parseLoop]

/-- Processing the whole emitted line list: one nested upsert per block entry. -/
theorem parseLoop_blocks (sm : List (Str × GoMap Str))
    (hg : ∀ b ∈ sm, ∀ kv ∈ b.2, CleanKV kv.1 kv.2) :
    ∀ (sec0 : Str) (cfg : GoMap Str),
    parseLoop sec0 cfg ((sm.map (fun b => blockRawLines b.1 b.2)).flatten ++ [[]]) =
      sm.foldl
        (fun c b => b.2.foldl (fun c2 kv => goUpsert c2 (b.1 ++ str "." ++ kv.1) kv.2) c)
        cfg := by
  induction sm with
  | nil =>
    intro sec0 cfg
    simp only [List.map_nil, List.flatten_nil, List.nil_append, List.foldl_nil]
    exact parseLoop_final_blank sec0 cfg
  | cons b t ih =>
    intro sec0 cfg
    have hb : ∀ kv ∈ b.2, CleanKV kv.1 kv.2 := hg b (List.mem_cons_self b t)
    have ht : ∀ b' ∈ t, ∀ kv ∈ b'.2, CleanKV kv.1 kv.2 :=
      fun b' hm => hg b' (List.mem_cons_of_mem b hm)
    simp only [List.map_cons, List.flatten_cons, List.foldl_cons]
    conv_lhs => rw [List.append_assoc]
    rw [parseLoop_block b.1 b.2 hb _ sec0 cfg]
    exact ih ht b.1 _

theorem renderBlock_lines (s : Str) (vals : GoMap Str) :
    renderBlock s vals = ((blockRawLines s vals).map (fun l => l ++ ['\n'])).flatten := by
  rw [renderBlock, foldl_append_eq_join, blockRawLines]
  simp only [List.map_cons, List.map_append, List.map_map, List.flatten_cons,
    List.flatten_append, List.map_nil, List.flatten_nil]
  rw [show List.map ((fun l => l ++ ['\n']) ∘ kvLine) vals =
      List.map (fun kv => str "\t" ++ (kv.1 ++ (str " = " ++ (kv.2 ++ str "\n")))) vals from
    List.map_congr_left fun kv _ => by simp [kvLine, str, List.append_assoc]]
  simp [str, List.append_assoc]

theorem buildGitConfig_lines (m : GoMap Str) :
    buildGitConfig m =
      (((buildSectionMap m).map (fun b => blockRawLines b.1 b.2)).flatten.map
        (fun l => l ++ ['\n'])).flatten := by
  rw [buildGitConfig, foldl_append_eq_join, List.nil_append]
  induction buildSectionMap m with
  | nil => rfl
  | cons b t ih =>
    simp only [List.map_cons, List.flatten_cons, List.map_append, List.flatten_append]
    rw [renderBlock_lines, ih]

theorem splitNl_joined (lines : List Str) (h : ∀ l ∈ lines, goContains l '\n' = false) :
    goSplitChar '\n' ((lines.map (fun l => l ++ ['\n'])).flatten) = lines ++ [[]] := by
  induction lines with
  | nil => rfl
  | cons l t ih =>
    have hl := h l (List.mem_cons_self l t)
    have ht : ∀ l' ∈ t, goContains l' '\n' = false :=
      fun l' hm => h l' (List.mem_cons_of_mem l hm)
    simp only [List.map_cons, List.flatten_cons]
    rw [show (l ++ ['\n']) ++ (t.map (fun l' => l' ++ ['\n'])).flatten =
      l ++ '\n' :: (t.map (fun l' => l' ++ ['\n'])).flatten from by simp]
    rw [goSplitChar_append, goSplitChar_eq_single '\n' l hl, ih ht]
    rfl

/-! ### The grouped section map: invariants and its multiset of entries -/

theorem goUpsert_mem {α : Type} (inner : GoMap α) (k : Str) (v : α) :
    ∀ kv ∈ goUpsert inner k v, kv ∈ inner ∨ kv = (k, v) := by
  induction inner with
  | nil => simp [goUpsert]
  | cons hd t ih =>
    obtain ⟨k0, v0⟩ := hd
    intro kv hkv
    by_cases h : k0 = k
    · simp only [goUpsert, h, if_true] at hkv
      rcases List.mem_cons.mp hkv with he | hm
      · exact Or.inr he
      · exact Or.inl (List.mem_cons_of_mem _ hm)
    · simp only [goUpsert, h, if_false] at hkv
      rcases List.mem_cons.mp hkv with he | hm
      · exact Or.inl (he ▸ List.mem_cons_self _ _)
      · rcases ih kv hm with h1 | h2
        · exact Or.inl (List.mem_cons_of_mem _ h1)
        · exact Or.inr h2

/-- The goodness facts the round trip needs about a stored leaf/value pair. -/
def GoodKV (l v : Str) : Prop :=
  CleanKV l v ∧ goContains l '\n' = false ∧ goContains v '\n' = false

theorem goUpsertSec_good (sm : List (Str × GoMap Str)) (sec leaf v : Str)
    (hsm : ∀ b ∈ sm, goContains b.1 '\n' = false ∧ ∀ kv ∈ b.2, GoodKV kv.1 kv.2)
    (hs : goContains sec '\n' = false) (hkv : GoodKV leaf v) :
    ∀ b ∈ goUpsertSec sm sec leaf v,
      goContains b.1 '\n' = false ∧ ∀ kv ∈ b.2, GoodKV kv.1 kv.2 := by
  induction sm with
  | nil =>
    intro b hb
    simp only [goUpsertSec, List.mem_singleton] at hb
    subst hb
    refine ⟨hs, ?_⟩
    intro kv hkv2
    simp only [goUpsert, List.mem_singleton] at hkv2
    subst hkv2
    exact hkv
  | cons hd t ih =>
    obtain ⟨s0, inner⟩ := hd
    have hhd := hsm (s0, inner) (List.mem_cons_self _ _)
    have ht : ∀ b ∈ t, goContains b.1 '\n' = false ∧ ∀ kv ∈ b.2, GoodKV kv.1 kv.2 :=
      fun b hm => hsm b (List.mem_cons_of_mem _ hm)
    intro b hb
    by_cases h : s0 = sec
    · simp only [goUpsertSec, h, if_true] at hb
      rcases List.mem_cons.mp hb with he | hm
      · subst he
        refine ⟨h ▸ hhd.1, ?_⟩
        intro kv hkv2
        rcases goUpsert_mem inner leaf v kv hkv2 with h1 | h2
        · exact hhd.2 kv h1
        · exact h2 ▸ hkv
      · exact ht b hm
    · simp only [goUpsertSec, h, if_false] at hb
      rcases List.mem_cons.mp hb with he | hm
      · exact he ▸ hhd
      · exact ih ht b hm

theorem buildSectionMap_good (m : GoMap Str)
    (hm : ∀ kv ∈ m, ∀ sec leaf, buildDest kv.1 = some (sec, leaf) →
      goContains sec '\n' = false ∧ GoodKV leaf kv.2) :
    ∀ b ∈ buildSectionMap m,
      goContains b.1 '\n' = false ∧ ∀ kv ∈ b.2, GoodKV kv.1 kv.2 := by
  rw [buildSectionMap]
  suffices hgen : ∀ sm : List (Str × GoMap Str),
      (∀ b ∈ sm, goContains b.1 '\n' = false ∧ ∀ kv ∈ b.2, GoodKV kv.1 kv.2) →
      ∀ b ∈ m.foldl
        (fun sm kv =>
          match buildDest kv.1 with
          | some (sec, keyName) => goUpsertSec sm sec keyName kv.2
          | none => sm) sm,
        goContains b.1 '\n' = false ∧ ∀ kv ∈ b.2, GoodKV kv.1 kv.2 by
    exact hgen [] (by simp)
  induction m with
  | nil => intro sm hsm; simpa using hsm
  | cons kv t ih =>
    intro sm hsm
    have hkv := hm kv (List.mem_cons_self kv t)
    have ht : ∀ kv' ∈ t, ∀ sec leaf, buildDest kv'.1 = some (sec, leaf) →
        goContains sec '\n' = false ∧ GoodKV leaf kv'.2 :=
      fun kv' hm' => hm kv' (List.mem_cons_of_mem kv hm')
    simp only [List.foldl_cons]
    cases hd : buildDest kv.1 with
    | none =>
      simp only [hd]
      exact ih ht sm hsm
    | some dest =>
      obtain ⟨sec, leaf⟩ := dest
      simp only [hd]
      exact ih ht _ (goUpsertSec_good sm sec leaf kv.2 hsm (hkv sec leaf hd).1
        (hkv sec leaf hd).2)

/-- The flat list of entries the emitted blocks will parse back to. -/
def wrOf (sm : List (Str × GoMap Str)) : GoMap Str :=
  (sm.map (fun b => b.2.map (fun kv => (b.1 ++ str "." ++ kv.1, kv.2)))).flatten

theorem nested_foldl_eq_writes (sm : List (Str × GoMap Str)) :
    ∀ cfg : GoMap Str,
    sm.foldl
      (fun c b => b.2.foldl (fun c2 kv => goUpsert c2 (b.1 ++ str "." ++ kv.1) kv.2) c)
      cfg =
    (wrOf sm).foldl (fun c kv => goUpsert c kv.1 kv.2) cfg := by
  induction sm with
  | nil => intro cfg; rfl
  | cons b t ih =>
    intro cfg
    simp only [List.foldl_cons, wrOf, List.map_cons, List.flatten_cons, List.foldl_append]
    rw [ih]
    congr 1
    rw [List.foldl_map]

theorem goUpsert_fresh {α : Type} (m : GoMap α) (k : Str) (v : α)
    (h : k ∉ goKeys m) : goUpsert m k v = m ++ [(k, v)] := by
  induction m with
  | nil => rfl
  | cons hd t ih =>
    obtain ⟨k0, v0⟩ := hd
    simp only [goKeys, List.map_cons, List.mem_cons, not_or] at h
    have h1 : ¬ k0 = k := fun he => h.1 he.symm
    simp [goUpsert, h1, ih h.2]

theorem wrOf_mem_of (sm : List (Str × GoMap Str)) (sec leaf : Str)
    (inner : GoMap Str) (v0 : Str)
    (h1 : (sec, inner) ∈ sm) (h2 : (leaf, v0) ∈ inner) :
    (sec ++ str "." ++ leaf, v0) ∈ wrOf sm := by
  rw [wrOf, List.mem_flatten]
  refine ⟨inner.map (fun kv => (sec ++ str "." ++ kv.1, kv.2)), ?_, ?_⟩
  · exact List.mem_map.mpr ⟨(sec, inner), h1, rfl⟩
  · exact List.mem_map.mpr ⟨(leaf, v0), h2, rfl⟩

theorem goUpsertSec_perm (sm : List (Str × GoMap Str)) (sec leaf v : Str)
    (hfresh : ∀ inner, (sec, inner) ∈ sm → leaf ∉ goKeys inner) :
    (wrOf (goUpsertSec sm sec leaf v)).Perm ((sec ++ str "." ++ leaf, v) :: wrOf sm) := by
  induction sm with
  | nil =>
    simp [goUpsertSec, wrOf, goUpsert]
  | cons hd t ih =>
    obtain ⟨s0, inner⟩ := hd
    by_cases h : s0 = sec
    · subst h
      have hf : leaf ∉ goKeys inner := hfresh inner (List.mem_cons_self _ _)
      simp only [goUpsertSec, eq_self_iff_true, if_true]
      rw [goUpsert_fresh inner leaf v hf]
      simp only [wrOf, List.map_cons, List.flatten_cons, List.map_append, List.map_nil]
      rw [List.append_assoc]
      exact List.perm_middle
    · have hft : ∀ inner', (sec, inner') ∈ t → leaf ∉ goKeys inner' :=
        fun inner' hm => hfresh inner' (List.mem_cons_of_mem _ hm)
      have ih' := ih hft
      simp only [goUpsertSec, h, if_false]
      simp only [wrOf, List.map_cons, List.flatten_cons] at ih' ⊢
      exact (List.Perm.append_left _ ih').trans List.perm_middle

theorem buildSectionMap_fold_perm (m : GoMap Str)
    (hdest : ∀ kv ∈ m, ∃ sec leaf, buildDest kv.1 = some (sec, leaf) ∧
      kv.1 = sec ++ str "." ++ leaf) :
    ∀ sm : List (Str × GoMap Str),
      (∀ kv ∈ m, kv.1 ∉ goKeys (wrOf sm)) → (goKeys m).Nodup →
      (wrOf (m.foldl
        (fun sm kv =>
          match buildDest kv.1 with
          | some (sec, keyName) => goUpsertSec sm sec keyName kv.2
          | none => sm) sm)).Perm (m ++ wrOf sm) := by
  induction m with
  | nil => intro sm _ _; simp
  | cons kv rest ih =>
    intro sm hfresh hnd
    obtain ⟨sec, leaf, hd, hkey⟩ := hdest kv (List.mem_cons_self kv rest)
    simp only [goKeys, List.map_cons, List.nodup_cons] at hnd
    have hnd1 : kv.1 ∉ goKeys rest := hnd.1
    have hnd2 : (goKeys rest).Nodup := hnd.2
    simp only [List.foldl_cons, hd]
    have hf : ∀ inner, (sec, inner) ∈ sm → leaf ∉ goKeys inner := by
      intro inner hin hleaf
      obtain ⟨⟨l0, v0⟩, hmem, he⟩ := List.mem_map.mp hleaf
      have hl0 : l0 = leaf := he
      subst hl0
      have hw : (sec ++ str "." ++ l0, v0) ∈ wrOf sm :=
        wrOf_mem_of sm sec l0 inner v0 hin hmem
      refine hfresh kv (List.mem_cons_self kv rest) ?_
      rw [hkey]
      exact List.mem_map.mpr ⟨(sec ++ str "." ++ l0, v0), hw, rfl⟩
    have hperm1 := goUpsertSec_perm sm sec leaf kv.2 hf
    have hperm1' : (wrOf (goUpsertSec sm sec leaf kv.2)).Perm (kv :: wrOf sm) := by
      have hkv : (sec ++ str "." ++ leaf, kv.2) = kv := by
        rw [← hkey]
      rwa [hkv] at hperm1
    have hfresh' : ∀ kv' ∈ rest, kv'.1 ∉ goKeys (wrOf (goUpsertSec sm sec leaf kv.2)) := by
      intro kv' hm' hkeys
      have hkp : (goKeys (wrOf (goUpsertSec sm sec leaf kv.2))).Perm
          (kv.1 :: goKeys (wrOf sm)) := by
        have := hperm1'.map Prod.fst
        simpa [goKeys] using this
      rcases List.mem_cons.mp (hkp.mem_iff.mp hkeys) with he | hm2
      · exact hnd1 (he ▸ List.mem_map.mpr ⟨kv', hm', rfl⟩)
      · exact hfresh kv' (List.mem_cons_of_mem kv hm') hm2
    have hrec := ih (fun kv' h' => hdest kv' (List.mem_cons_of_mem kv h'))
      (goUpsertSec sm sec leaf kv.2) hfresh' hnd2
    refine hrec.trans ?_
    refine (List.Perm.append_left rest hperm1').trans ?_
    rw [List.cons_append]
    exact List.perm_middle

theorem lookupGo_mem {α : Type} (m : GoMap α) (hm : WFMap m) (k : Str) (v : α) :
    lookupGo m k = some v ↔ (k, v) ∈ m := by
  induction m with
  | nil => simp [lookupGo]
  | cons hd t ih =>
    obtain ⟨k0, v0⟩ := hd
    simp only [WFMap, goKeys, List.map_cons, List.nodup_cons] at hm
    by_cases h : k0 = k
    · subst h
      simp only [lookupGo, if_pos rfl, List.mem_cons]
      constructor
      · intro hv
        exact Or.inl (by simpa using congrArg (Prod.mk k0) (Option.some.inj hv).symm)
      · intro hv
        rcases hv with he | hmem
        · simp [((Prod.mk.injEq _ _ _ _).mp he.symm).2]
        · exact absurd (List.mem_map.mpr ⟨(k0, v), hmem, rfl⟩) hm.1
    · simp only [lookupGo, if_neg h, List.mem_cons]
      rw [ih hm.2]
      constructor
      · exact Or.inr
      · intro hv
        rcases hv with he | hmem
        · exact absurd ((Prod.mk.injEq _ _ _ _).mp he.symm).1 h
        · exact hmem

theorem WFMap_of_perm {α : Type} (m1 m2 : GoMap α) (hp : m1.Perm m2) (h2 : WFMap m2) :
    WFMap m1 := by
  rw [WFMap]
  exact ((hp.map Prod.fst).nodup_iff).mpr h2

theorem lookupGo_of_perm {α : Type} (m1 m2 : GoMap α) (hp : m1.Perm m2)
    (h2 : WFMap m2) (k : Str) : lookupGo m1 k = lookupGo m2 k := by
  have h1 : WFMap m1 := WFMap_of_perm m1 m2 hp h2
  cases hx : lookupGo m2 k with
  | some v =>
    exact (lookupGo_mem m1 h1 k v).mpr (hp.mem_iff.mpr ((lookupGo_mem m2 h2 k v).mp hx))
  | none =>
    cases hy : lookupGo m1 k with
    | none => rfl
    | some v =>
      have := (lookupGo_mem m2 h2 k v).mpr (hp.mem_iff.mp ((lookupGo_mem m1 h1 k v).mp hy))
      rw [this] at hx
      exact absurd hx (by simp)

theorem goContains_append_ff (x y : Str) (c : Char) (hx : goContains x c = false)
    (hy : goContains y c = false) : goContains (x ++ y) c = false := by
  rw [goContains_eq_false] at *
  intro hm
  rcases List.mem_append.mp hm with h1 | h2
  · exact hx h1
  · exact hy h2

theorem goContains_cons_ff (d : Char) (y : Str) (c : Char) (hd : ¬ c = d)
    (hy : goContains y c = false) : goContains (d :: y) c = false := by
  rw [goContains_eq_false] at *
  intro hm
  rcases List.mem_cons.mp hm with h1 | h2
  · exact hd h1
  · exact hy h2

theorem goContains_append_ff_left (x y : Str) (c : Char)
    (h : goContains (x ++ y) c = false) : goContains x c = false := by
  rw [goContains_eq_false] at *
  exact fun hm => h (List.mem_append_left y hm)

theorem goContains_append_ff_right (x y : Str) (c : Char)
    (h : goContains (x ++ y) c = false) : goContains y c = false := by
  rw [goContains_eq_false] at *
  exact fun hm => h (List.mem_append_right x hm)

/-- C2 (counterexample): the mapping `{"a.#b" ↦ "v"}` has a dot-containing,
quote-free key, yet `Parse(Build(m))` is empty (the emitted line `#b = v` is
re-parsed as a comment), so `Parse(Build(m)) ≠ m`. -/
theorem roundtrip_counterexample :
    goContains (str "a.#b") '.' = true ∧ goContains (str "a.#b") '"' = false ∧
      parseGitConfig (buildGitConfig [(str "a.#b", str "v")]) = [] ∧
      parseGitConfig (buildGitConfig [(str "a.#b", str "v")]) ≠
        [(str "a.#b", str "v")] := by
  refine ⟨by decide, by decide, by decide, by decide⟩

/-- C2 (amended): the round trip `Parse(Build(m)) == m` (as maps, i.e. with
equal lookups) holds for flat mappings with distinct keys whose keys contain
a dot, no quote and no newline, whose leaf (the part after the last dot) is
non-empty, trim-invariant, free of `=` and does not start with `#`, `;` or
`[`, and whose values are non-empty, trim-invariant and newline-free. -/
theorem parse_build_roundtrip (m : GoMap Str) (hwf : WFMap m)
    (hs : ∀ kv ∈ m, goContains kv.1 '"' = false ∧ goContains kv.1 '.' = true ∧
      goContains kv.1 '\n' = false ∧ goContains kv.2 '\n' = false ∧
      CleanKV (dotLeaf kv.1) kv.2) :
    ∀ k, lookupGo (parseGitConfig (buildGitConfig m)) k = lookupGo m k := by
  have hdest : ∀ kv ∈ m, ∃ sec leaf, buildDest kv.1 = some (sec, leaf) ∧
      kv.1 = sec ++ str "." ++ leaf := by
    intro kv hm
    obtain ⟨hq, hdot, hknl, hvnl, hclean⟩ := hs kv hm
    obtain ⟨a, b, hab, hb⟩ := exists_last_split kv.1 '.' hdot
    refine ⟨a, b, ?_, ?_⟩
    · rw [hab]; exact buildDest_no_quote a b hb (hab ▸ hq)
    · rw [hab]; simp [str]
  have hgood0 : ∀ kv ∈ m, ∀ sec leaf, buildDest kv.1 = some (sec, leaf) →
      goContains sec '\n' = false ∧ GoodKV leaf kv.2 := by
    intro kv hm sec leaf hbd
    obtain ⟨hq, hdot, hknl, hvnl, hclean⟩ := hs kv hm
    obtain ⟨a, b, hab, hb⟩ := exists_last_split kv.1 '.' hdot
    have hbd2 : buildDest kv.1 = some (a, b) := by
      rw [hab]; exact buildDest_no_quote a b hb (hab ▸ hq)
    rw [hbd] at hbd2
    have hsec : sec = a := congrArg Prod.fst (Option.some.inj hbd2)
    have hleaf : leaf = b := congrArg Prod.snd (Option.some.inj hbd2)
    rw [hsec, hleaf]
    have hknl2 : goContains (a ++ '.' :: b) '\n' = false := hab ▸ hknl
    refine ⟨goContains_append_ff_left _ _ _ hknl2, ?_, ?_, hvnl⟩
    · rw [show b = dotLeaf kv.1 from by rw [hab, dotLeaf_decomp a b hb]]
      exact hclean
    · have h2 := goContains_append_ff_right _ _ _ hknl2
      rw [goContains_eq_false] at h2 ⊢
      exact fun hmem => h2 (List.mem_cons_of_mem '.' hmem)
  have hsm := buildSectionMap_good m hgood0
  have hlines : ∀ l ∈ ((buildSectionMap m).map (fun b => blockRawLines b.1 b.2)).flatten,
      goContains l '\n' = false := by
    intro l hl
    obtain ⟨L, hL, hlL⟩ := List.mem_flatten.mp hl
    obtain ⟨b, hb, rfl⟩ := List.mem_map.mp hL
    have hbgood := hsm b hb
    rw [blockRawLines] at hlL
    rcases List.mem_cons.mp hlL with rfl | hrest
    · refine goContains_cons_ff '[' _ '\n' (by decide) ?_
      exact goContains_append_ff _ _ _ hbgood.1 (by decide)
    · rcases List.mem_append.mp hrest with hkvl | hblank
      · obtain ⟨kv, hkv, rfl⟩ := List.mem_map.mp hkvl
        have hg := hbgood.2 kv hkv
        rw [kvLine]
        refine goContains_append_ff _ _ _ ?_ hg.2.2
        refine goContains_append_ff _ _ _ ?_ (by decide)
        exact goContains_append_ff _ _ _ (by decide) hg.2.1
      · rw [List.mem_singleton.mp hblank]
        decide
  have hsplit : goSplitChar '\n' (buildGitConfig m) =
      ((buildSectionMap m).map (fun b => blockRawLines b.1 b.2)).flatten ++ [[]] := by
    rw [buildGitConfig_lines]
    exact splitNl_joined _ hlines
  have hparse : parseGitConfig (buildGitConfig m) =
      (buildSectionMap m).foldl
        (fun c b => b.2.foldl (fun c2 kv => goUpsert c2 (b.1 ++ str "." ++ kv.1) kv.2) c)
        [] := by
    rw [parseGitConfig, hsplit]
    exact parseLoop_blocks (buildSectionMap m)
      (fun b hb kv hkv => ((hsm b hb).2 kv hkv).1) [] []
  have hperm : (wrOf (buildSectionMap m)).Perm m := by
    have h0 := buildSectionMap_fold_perm m hdest []
      (by simp [wrOf, goKeys]) hwf
    have h1 : wrOf [] = ([] : GoMap Str) := rfl
    rw [buildSectionMap]
    simpa [h1] using h0
  have hWFw : WFMap (wrOf (buildSectionMap m)) := WFMap_of_perm _ m hperm hwf
  intro k
  rw [hparse, nested_foldl_eq_writes, lookupGo_foldl_goUpsert,
    lookupGo_reverse _ hWFw k, lookupGo_of_perm _ m hperm hwf k]
  cases lookupGo m k <;> simp [lookupGo, Option.orElse]

/-- Witness for the amended C2 theorem, at the two-entry mapping
`{"user.name" ↦ "A", "core.editor" ↦ "vim"}`. -/
theorem parse_build_roundtrip_witness :
    lookupGo
      (parseGitConfig (buildGitConfig
        [(str "user.name", str "A"), (str "core.editor", str "vim")]))
      (str "core.editor") = some (str "vim") :=
  (parse_build_roundtrip
    [(str "user.name", str "A"), (str "core.editor", str "vim")]
    (by decide) (by decide) (str "core.editor")).trans (by decide)

/-!
## The configuration store (`internal/config`, registry revision `part_000`)
-/

/-- `URLConfig` represents git url rewrite rules. -/
structure URLConfig where
  pattern : Str
  insteadOf : Str
deriving DecidableEq

/-- A Go `any` value as it occurs in the YAML-backed maps: strings, booleans,
integers, nested maps, generic lists, typed URL lists, and `nil`. -/
inductive GoVal where
  | vstr : Str → GoVal
  | vbool : Bool → GoVal
  | vint : Int → GoVal
  | vmap : List (Str × GoVal) → GoVal
  | vlist : List GoVal → GoVal
  | vurls : List URLConfig → GoVal
  | vnil : GoVal

/-- `UserConfig` represents the git user section. -/
structure UserConfig where
  name : Str := []
  email : Str := []
  signingKey : Str := []

/-- `Profile` represents a git configuration profile (registry revision:
one field per section in `ConfigSections`, plus `custom`, `url`, `user`). -/
structure Profile where
  add : GoMap GoVal := []
  «alias» : GoMap GoVal := []
  branch : GoMap GoVal := []
  column : GoMap GoVal := []
  commit : GoMap GoVal := []
  core : GoMap GoVal := []
  custom : GoMap GoVal := []
  delta : GoMap GoVal := []
  diff : GoMap GoVal := []
  feature : GoMap GoVal := []
  fetch : GoMap GoVal := []
  gpg : GoMap GoVal := []
  http : GoMap GoVal := []
  init : GoMap GoVal := []
  interactive : GoMap GoVal := []
  maintenance : GoMap GoVal := []
  merge : GoMap GoVal := []
  pull : GoMap GoVal := []
  push : GoMap GoVal := []
  rebase : GoMap GoVal := []
  rerere : GoMap GoVal := []
  tag : GoMap GoVal := []
  url : List URLConfig := []
  user : UserConfig := {}

/-- `Config` represents the entire configuration. -/
structure Config where
  global : GoMap GoVal
  profiles : GoMap Profile
  current : Str

/-- `ConfigSections` from `sections.go`: all supported git config sections. -/
def ConfigSections : List Str :=
  [str "add", str "alias", str "branch", str "column", str "commit", str "core",
    str "delta", str "diff", str "feature", str "fetch", str "gpg", str "http",
    str "init", str "interactive", str "maintenance", str "merge", str "pull",
    str "push", str "rebase", str "rerere", str "tag"]

/-- `GetSection` from `sections.go`: dynamic access to a profile section by
name (the `switch` is an equality chain; unknown names yield the nil map). -/
def Profile.GetSection (p : Profile) (name : Str) : GoMap GoVal :=
  if name = str "add" then p.add
  else if name = str "alias" then p.«alias»
  else if name = str "branch" then p.branch
  else if name = str "column" then p.column
  else if name = str "commit" then p.commit
  else if name = str "core" then p.core
  else if name = str "delta" then p.delta
  else if name = str "diff" then p.diff
  else if name = str "feature" then p.feature
  else if name = str "fetch" then p.fetch
  else if name = str "gpg" then p.gpg
  else if name = str "http" then p.http
  else if name = str "init" then p.init
  else if name = str "interactive" then p.interactive
  else if name = str "maintenance" then p.maintenance
  else if name = str "merge" then p.merge
  else if name = str "pull" then p.pull
  else if name = str "push" then p.push
  else if name = str "rebase" then p.rebase
  else if name = str "rerere" then p.rerere
  else if name = str "tag" then p.tag
  else []

/-- `SetSection` from `sections.go`: dynamic modification of a profile
section by name (unknown names are a no-op). -/
def Profile.SetSection (p : Profile) (name : Str) (values : GoMap GoVal) : Profile :=
  if name = str "add" then { p with add := values }
  else if name = str "alias" then { p with «alias» := values }
  else if name = str "branch" then { p with branch := values }
  else if name = str "column" then { p with column := values }
  else if name = str "commit" then { p with commit := values }
  else if name = str "core" then { p with core := values }
  else if name = str "delta" then { p with delta := values }
  else if name = str "diff" then { p with diff := values }
  else if name = str "feature" then { p with feature := values }
  else if name = str "fetch" then { p with fetch := values }
  else if name = str "gpg" then { p with gpg := values }
  else if name = str "http" then { p with http := values }
  else if name = str "init" then { p with init := values }
  else if name = str "interactive" then { p with interactive := values }
  else if name = str "maintenance" then { p with maintenance := values }
  else if name = str "merge" then { p with merge := values }
  else if name = str "pull" then { p with pull := values }
  else if name = str "push" then { p with push := values }
  else if name = str "rebase" then { p with rebase := values }
  else if name = str "rerere" then { p with rerere := values }
  else if name = str "tag" then { p with tag := values }
  else p

/-- The error text of `errors.Newf("profile '%s' does not exist", name)`. -/
def profileNotFoundMsg (name : Str) : Str :=
  str "profile '" ++ name ++ str "' does not exist"

/-- The error text of `errors.Newf("profile '%s' already exists", name)`. -/
def profileExistsMsg (name : Str) : Str :=
  str "profile '" ++ name ++ str "' already exists"

/-- `AddProfile`: the result value and the store after the call (Go mutates
the receiver; the embedding returns the updated store). -/
def Config.AddProfile (c : Config) (name : Str) (profile : Profile) :
    Except Str Unit × Config :=
  match lookupGo c.profiles name with
  | some _ => (Except.error (profileExistsMsg name), c)
  | none => (Except.ok (), { c with profiles := goUpsert c.profiles name profile })

/-- `GetProfile`. -/
def Config.GetProfile (c : Config) (name : Str) : Except Str Profile :=
  match lookupGo c.profiles name with
  | none => Except.error (profileNotFoundMsg name)
  | some profile => Except.ok profile

/-- `mergeMap`: copy the global entries into a fresh map, then override with
the profile entries (`maps.Copy` twice). -/
def mergeMap (globalConfig profileConfig : GoMap GoVal) : GoMap GoVal :=
  profileConfig.foldl (fun acc kv => goUpsert acc kv.1 kv.2)
    (globalConfig.foldl (fun acc kv => goUpsert acc kv.1 kv.2) [])

/-- The `getGlobalSection` closure inside `Merge`, hoisted: the global value
for a section when it is a map, else the empty map. -/
def Config.getGlobalSection (c : Config) (sec : Str) : GoMap GoVal :=
  match lookupGo c.global sec with
  | some (GoVal.vmap m) => m
  | _ => []

/-- Models `fmt.Sprintf("%v", x)` for the values reaching it in `Merge`
(strings, booleans, integers, missing/nil map entries, per the `fmt` docs);
the rendering of composite values is not modelled precisely, as no behavior
verified here depends on it. -/
def sprintfV : Option GoVal → Str
  | none => str "<nil>"
  | some (GoVal.vstr s) => s
  | some (GoVal.vbool true) => str "true"
  | some (GoVal.vbool false) => str "false"
  | some (GoVal.vint i) => (toString i).data
  | some GoVal.vnil => str "<nil>"
  | some (GoVal.vmap _) => str "map[...]"
  | some (GoVal.vlist _) => str "[...]"
  | some (GoVal.vurls _) => str "[...]"

/-- The Go test `c.Global["url"] != nil` (a missing key reads as nil). -/
def gvNonNil : Option GoVal → Bool
  | none => false
  | some GoVal.vnil => false
  | some _ => true

/-- The URL-merging block of `Merge`, hoisted: profile URLs win when present;
otherwise the global list is used, converted element-wise when it was
unmarshalled as `[]any`. -/
def mergedURLsOf (c : Config) (profile : Profile) : List URLConfig :=
  if profile.url.length = 0 ∧ gvNonNil (lookupGo c.global (str "url")) = true then
    match lookupGo c.global (str "url") with
    | some (GoVal.vurls urlList) => urlList
    | some (GoVal.vlist urlList) =>
      urlList.foldl
        (fun acc item =>
          match item with
          | GoVal.vmap urlMap =>
            acc ++ [{ pattern := sprintfV (lookupGo urlMap (str "pattern")),
                      insteadOf := sprintfV (lookupGo urlMap (str "insteadOf")) }]
          | _ => acc)
        profile.url
    | _ => profile.url
  else profile.url

/-- `Merge` (registry revision): global config combined with the named
profile; every section in `ConfigSections` is merged with `mergeMap`, the
URL list per `mergedURLsOf`, `user` and `custom` come from the profile. -/
def Config.Merge (c : Config) (profileName : Str) : Except Str Profile :=
  match lookupGo c.profiles profileName with
  | none => Except.error (profileNotFoundMsg profileName)
  | some profile =>
    Except.ok
      { ConfigSections.foldl
          (fun (mp : Profile) sec =>
            mp.SetSection sec
              (mergeMap (c.getGlobalSection sec) (profile.GetSection sec)))
          ({ user := profile.user, url := mergedURLsOf c profile } : Profile) with
        custom := profile.custom }

/-- `Merge` with the store state threaded through the call: every statement
of the Go body binds locals or writes to maps freshly allocated inside
(`mergeMap`'s result map, the new `Profile`), never to the receiver, so the
threaded store is returned as received. -/
def Config.MergeSt (c : Config) (profileName : Str) : Except Str Profile × Config :=
  match lookupGo c.profiles profileName with
  | none => (Except.error (profileNotFoundMsg profileName), c)
  | some profile =>
    (Except.ok
      { ConfigSections.foldl
          (fun (mp : Profile) sec =>
            mp.SetSection sec
              (mergeMap (c.getGlobalSection sec) (profile.GetSection sec)))
          ({ user := profile.user, url := mergedURLsOf c profile } : Profile) with
        custom := profile.custom }, c)

/-- Reading a registered section off `Merge`'s result gives exactly the
`mergeMap` of the global and profile sections. -/
theorem merge_getSection (c : Config) (p : Profile) (nm : Str)
    (hp : lookupGo c.profiles nm = some p) :
    ∀ sec ∈ ConfigSections,
      (c.Merge nm).toOption.map (fun mp => mp.GetSection sec) =
        some (mergeMap (c.getGlobalSection sec) (p.GetSection sec)) := by
  intro sec hsec
  rw [Config.Merge, hp]
  fin_cases hsec <;> rfl

theorem lookupGo_mergeMap (g q : GoMap GoVal) (hg : WFMap g) (hq : WFMap q) (k : Str) :
    lookupGo (mergeMap g q) k =
      (lookupGo q k).orElse (fun _ => lookupGo g k) := by
  rw [mergeMap, lookupGo_foldl_goUpsert, lookupGo_foldl_goUpsert,
    lookupGo_reverse g hg, lookupGo_reverse q hq]
  cases lookupGo q k <;> cases lookupGo g k <;> simp [lookupGo, Option.orElse]

/-- C1: for a store with profile `p` and a recognized section whose global
value is a map (or absent), the merged profile's section maps every key to
the profile's value when the profile section has it, else to the global
value, and holds no other keys (its lookup is the key-by-key override). -/
theorem merge_section_override (c : Config) (p : Profile) (nm sec : Str)
    (hp : lookupGo c.profiles nm = some p)
    (hsec : sec ∈ ConfigSections)
    (gm : GoMap GoVal)
    (hg : lookupGo c.global sec = some (GoVal.vmap gm) ∨
      (lookupGo c.global sec = none ∧ gm = []))
    (hgw : WFMap gm) (hpw : WFMap (p.GetSection sec)) :
    ∀ k, (c.Merge nm).toOption.map (fun mp => lookupGo (mp.GetSection sec) k) =
      some ((lookupGo (p.GetSection sec) k).orElse
        (fun _ => lookupGo gm k)) := by
  intro k
  have hgg : c.getGlobalSection sec = gm := by
    rcases hg with h | ⟨h, rfl⟩ <;> simp [Config.getGlobalSection, h]
  have h := merge_getSection c p nm hp sec hsec
  cases hmo : (c.Merge nm).toOption with
  | none => rw [hmo] at h; cases h
  | some mp =>
    rw [hmo] at h
    simp only [Option.map_some', Option.some.injEq] at h ⊢
    rw [h, hgg, lookupGo_mergeMap gm (p.GetSection sec) hgw hpw k]

/-- Witness for C1, on the spec's own example: Global
`{core: {editor: vim, autocrlf: input}}` and profile `test` with
`{core: {autocrlf: false}}`: merged core keeps `editor = vim` from global and
takes `autocrlf = false` from the profile. -/
theorem merge_section_override_witness :
    ((Config.mk
        [(str "core", GoVal.vmap [(str "editor", GoVal.vstr (str "vim")),
          (str "autocrlf", GoVal.vstr (str "input"))])]
        [(str "test", { core := [(str "autocrlf", GoVal.vbool false)] })]
        []).Merge (str "test")).toOption.map
      (fun mp => lookupGo (mp.GetSection (str "core")) (str "editor")) =
      some (some (GoVal.vstr (str "vim"))) := by
  have h1 := merge_section_override
    (Config.mk
      [(str "core", GoVal.vmap [(str "editor", GoVal.vstr (str "vim")),
        (str "autocrlf", GoVal.vstr (str "input"))])]
      [(str "test", { core := [(str "autocrlf", GoVal.vbool false)] })]
      [])
    { core := [(str "autocrlf", GoVal.vbool false)] }
    (str "test") (str "core") rfl (by decide)
    [(str "editor", GoVal.vstr (str "vim")), (str "autocrlf", GoVal.vstr (str "input"))]
    (Or.inl rfl) (by decide) (by decide)
  exact (h1 (str "editor")).trans (by rfl)

theorem merge_url (c : Config) (p : Profile) (nm : Str)
    (hp : lookupGo c.profiles nm = some p) :
    (c.Merge nm).toOption.map Profile.url = some (mergedURLsOf c p) := by
  rw [Config.Merge, hp]
  rfl

/-- C3: `Merge` keeps the profile's URL-rewrite list verbatim when it is
non-empty (ignoring the global list), and otherwise returns the global
URL-rewrite list verbatim — the stored typed list when the global `url` entry
holds one, or the empty list when the global entry is absent. -/
theorem merge_url_override (c : Config) (p : Profile) (nm : Str)
    (hp : lookupGo c.profiles nm = some p) :
    (p.url ≠ [] → (c.Merge nm).toOption.map Profile.url = some p.url) ∧
    (∀ L, p.url = [] → lookupGo c.global (str "url") = some (GoVal.vurls L) →
      (c.Merge nm).toOption.map Profile.url = some L) ∧
    (p.url = [] → lookupGo c.global (str "url") = none →
      (c.Merge nm).toOption.map Profile.url = some []) := by
  have hm := merge_url c p nm hp
  refine ⟨?_, ?_, ?_⟩
  · intro hne
    rw [hm]
    congr 1
    rw [mergedURLsOf, if_neg]
    intro hand
    exact hne (List.length_eq_zero.mp hand.1)
  · intro L h0 hurl
    rw [hm]
    congr 1
    rw [mergedURLsOf, if_pos ⟨by simp [h0], by simp [hurl, gvNonNil]⟩, hurl]
  · intro h0 hurl
    rw [hm]
    congr 1
    rw [mergedURLsOf, if_neg]
    · exact h0
    · intro hand
      rw [hurl] at hand
      exact absurd hand.2 (by simp [gvNonNil])

/-- Witness for C3: a store whose global `url` list has one rewrite rule and
whose profile `p` has an empty list: `Merge` returns the global list. -/
theorem merge_url_override_witness :
    ((Config.mk [(str "url", GoVal.vurls [⟨str "ssh://x/", str "https://x/"⟩])]
        [(str "p", {})] []).Merge (str "p")).toOption.map Profile.url =
      some [⟨str "ssh://x/", str "https://x/"⟩] :=
  (merge_url_override
    (Config.mk [(str "url", GoVal.vurls [⟨str "ssh://x/", str "https://x/"⟩])]
      [(str "p", {})] [])
    {} (str "p") rfl).2.1 [⟨str "ssh://x/", str "https://x/"⟩] rfl rfl

/-- C8: calling `AddProfile` twice with the same name: the second call fails
with the already-exists error and leaves the store exactly as it was after
the first call. -/
theorem addProfile_twice (c : Config) (nm : Str) (p1 p2 : Profile) :
    ((c.AddProfile nm p1).2.AddProfile nm p2).1 =
        Except.error (profileExistsMsg nm) ∧
      ((c.AddProfile nm p1).2.AddProfile nm p2).2 = (c.AddProfile nm p1).2 := by
  cases h : lookupGo c.profiles nm with
  | some q => simp [Config.AddProfile, h]
  | none =>
    have h2 : lookupGo (goUpsert c.profiles nm p1) nm = some p1 := by
      rw [lookupGo_goUpsert]
      simp
    simp [Config.AddProfile, h, h2]

/-- C9: `Merge` is pure: with the store state threaded through the call, the
store comes back unchanged — same global settings and same stored profiles —
and the returned value is `Merge`'s. -/
theorem merge_pure (c : Config) (nm : Str) :
    (c.MergeSt nm).2 = c ∧
      (c.MergeSt nm).2.global = c.global ∧
      (∀ x, lookupGo (c.MergeSt nm).2.profiles x = lookupGo c.profiles x) ∧
      (c.MergeSt nm).1 = c.Merge nm := by
  cases h : lookupGo c.profiles nm <;>
    simp [Config.MergeSt, Config.Merge, h]

/-!
## The per-field revision of the store (`part_001`), for the refinement claim
-/

/-- `Profile` of the per-field revision (`part_001`): one fixed field per
handled section, no registry. -/
structure ProfileV1 where
  user : UserConfig := {}
  url : List URLConfig := []
  http : GoMap GoVal := []
  core : GoMap GoVal := []
  interactive : GoMap GoVal := []
  add : GoMap GoVal := []
  delta : GoMap GoVal := []
  push : GoMap GoVal := []
  merge : GoMap GoVal := []
  commit : GoMap GoVal := []
  gpg : GoMap GoVal := []
  pull : GoMap GoVal := []
  rerere : GoMap GoVal := []
  column : GoMap GoVal := []
  branch : GoMap GoVal := []
  init : GoMap GoVal := []
  custom : GoMap GoVal := []

/-- `Config` of the per-field revision. -/
structure ConfigV1 where
  global : GoMap GoVal
  profiles : GoMap ProfileV1
  current : Str

/-- The `getGlobalSection` closure of the per-field `Merge`, hoisted. -/
def ConfigV1.getGlobalSection (c : ConfigV1) (sec : Str) : GoMap GoVal :=
  match lookupGo c.global sec with
  | some (GoVal.vmap m) => m
  | _ => []

/-- The URL-merging block of the per-field `Merge`, hoisted (same code as the
registry revision). -/
def mergedURLsOfV1 (c : ConfigV1) (profile : ProfileV1) : List URLConfig :=
  if profile.url.length = 0 ∧ gvNonNil (lookupGo c.global (str "url")) = true then
    match lookupGo c.global (str "url") with
    | some (GoVal.vurls urlList) => urlList
    | some (GoVal.vlist urlList) =>
      urlList.foldl
        (fun acc item =>
          match item with
          | GoVal.vmap urlMap =>
            acc ++ [{ pattern := sprintfV (lookupGo urlMap (str "pattern")),
                      insteadOf := sprintfV (lookupGo urlMap (str "insteadOf")) }]
          | _ => acc)
        profile.url
    | _ => profile.url
  else profile.url

/-- `Merge` of the per-field revision (`part_001`): fourteen explicit
`mergeMap` calls, one per field. -/
def ConfigV1.Merge (c : ConfigV1) (profileName : Str) : Except Str ProfileV1 :=
  match lookupGo c.profiles profileName with
  | none => Except.error (profileNotFoundMsg profileName)
  | some profile =>
    Except.ok
      { user := profile.user,
        url := mergedURLsOfV1 c profile,
        http := mergeMap (c.getGlobalSection (str "http")) profile.http,
        core := mergeMap (c.getGlobalSection (str "core")) profile.core,
        interactive := mergeMap (c.getGlobalSection (str "interactive")) profile.interactive,
        add := mergeMap (c.getGlobalSection (str "add")) profile.add,
        delta := mergeMap (c.getGlobalSection (str "delta")) profile.delta,
        push := mergeMap (c.getGlobalSection (str "push")) profile.push,
        merge := mergeMap (c.getGlobalSection (str "merge")) profile.merge,
        commit := mergeMap (c.getGlobalSection (str "commit")) profile.commit,
        gpg := mergeMap (c.getGlobalSection (str "gpg")) profile.gpg,
        pull := mergeMap (c.getGlobalSection (str "pull")) profile.pull,
        rerere := mergeMap (c.getGlobalSection (str "rerere")) profile.rerere,
        column := mergeMap (c.getGlobalSection (str "column")) profile.column,
        branch := mergeMap (c.getGlobalSection (str "branch")) profile.branch,
        init := mergeMap (c.getGlobalSection (str "init")) profile.init,
        custom := profile.custom }

/-- Comparison view for the refinement claim: a per-field profile's section
contents by section name; names beyond its fixed fields view as empty. -/
def ProfileV1.sectionView (p : ProfileV1) (name : Str) : GoMap GoVal :=
  if name = str "http" then p.http
  else if name = str "core" then p.core
  else if name = str "interactive" then p.interactive
  else if name = str "add" then p.add
  else if name = str "delta" then p.delta
  else if name = str "push" then p.push
  else if name = str "merge" then p.merge
  else if name = str "commit" then p.commit
  else if name = str "gpg" then p.gpg
  else if name = str "pull" then p.pull
  else if name = str "rerere" then p.rerere
  else if name = str "column" then p.column
  else if name = str "branch" then p.branch
  else if name = str "init" then p.init
  else []

/-- Forgetting the registry-only sections of a registry profile gives a
per-field profile. -/
def Profile.toV1 (p : Profile) : ProfileV1 :=
  { user := p.user, url := p.url, http := p.http, core := p.core,
    interactive := p.interactive, add := p.add, delta := p.delta,
    push := p.push, merge := p.merge, commit := p.commit, gpg := p.gpg,
    pull := p.pull, rerere := p.rerere, column := p.column, branch := p.branch,
    init := p.init, custom := p.custom }

/-- The corresponding per-field store of a registry store. -/
def Config.toV1 (c : Config) : ConfigV1 :=
  { global := c.global,
    profiles := c.profiles.map (fun kv => (kv.1, kv.2.toV1)),
    current := c.current }

theorem lookupGo_map_snd {α β : Type} (f : α → β) (m : GoMap α) (k : Str) :
    lookupGo (m.map (fun kv => (kv.1, f kv.2))) k = (lookupGo m k).map f := by
  induction m with
  | nil => rfl
  | cons hd t ih =>
    obtain ⟨k0, v0⟩ := hd
    by_cases h : k0 = k <;> simp [lookupGo, h, ih]

/-- C7 (counterexample): with global `{alias: {co: checkout}}` and an empty
profile `p`, the registry `Merge` produces an effective profile whose `alias`
section is `{co: checkout}`, while the per-field `Merge` on the corresponding
store produces one with no `alias` section at all: the two implementations do
not produce equal effective profiles for every store. -/
theorem merge_refactor_counterexample :
    ((Config.mk [(str "alias", GoVal.vmap [(str "co", GoVal.vstr (str "checkout"))])]
        [(str "p", {})] []).Merge (str "p")).toOption.map
      (fun mp => mp.GetSection (str "alias")) =
        some [(str "co", GoVal.vstr (str "checkout"))] ∧
    (((Config.mk [(str "alias", GoVal.vmap [(str "co", GoVal.vstr (str "checkout"))])]
        [(str "p", {})] []).toV1).Merge (str "p")).toOption.map
      (fun mp => mp.sectionView (str "alias")) = some [] ∧
    ([(str "co", GoVal.vstr (str "checkout"))] : GoMap GoVal) ≠ [] := by
  refine ⟨rfl, rfl, by simp⟩

/-- C7 (amended): on the sections the per-field revision handles, the two
`Merge` implementations agree: merging in the per-field store corresponding
to a registry store yields exactly the forgetful image of the registry
merge (same user, url, custom, and the fourteen common sections). -/
theorem merge_refactor_equiv (c : Config) (nm : Str) :
    (c.toV1).Merge nm = (c.Merge nm).map Profile.toV1 := by
  cases h : lookupGo c.profiles nm with
  | none =>
    have hv : lookupGo (c.toV1).profiles nm = none := by
      show lookupGo (c.profiles.map (fun kv => (kv.1, kv.2.toV1))) nm = none
      rw [lookupGo_map_snd, h]
      rfl
    rw [ConfigV1.Merge, hv, Config.Merge, h]
    rfl
  | some p =>
    have hv : lookupGo (c.toV1).profiles nm = some p.toV1 := by
      show lookupGo (c.profiles.map (fun kv => (kv.1, kv.2.toV1))) nm = some p.toV1
      rw [lookupGo_map_snd, h]
      rfl
    rw [ConfigV1.Merge, hv, Config.Merge, h]
    rfl

/-!
## `cmd/switch.go`: flattening a profile to git-config keys
-/

/-- `addSectionToConfigRecursive`: hierarchical keys via dot notation; a map
value recurses with an extended key, a leaf value is stored directly. -/
def addSectionToConfigRecursive : GoMap GoVal → Str → GoMap GoVal → GoMap GoVal
  | config, _, [] => config
  | config, pfx, (k, GoVal.vmap m) :: rest =>
    addSectionToConfigRecursive
      (addSectionToConfigRecursive config (pfx ++ str "." ++ k) m) pfx rest
  | config, pfx, (k, v) :: rest =>
    addSectionToConfigRecursive (goUpsert config (pfx ++ str "." ++ k) v) pfx rest

/-- `addSectionToConfig`: delegates to the recursive helper. -/
def addSectionToConfig (config : GoMap GoVal) (sec : Str) (values : GoMap GoVal) :
    GoMap GoVal :=
  addSectionToConfigRecursive config sec values

/-- The user-section block of `profileToGitConfig`: each `user.*` key is set
exactly when the corresponding field is a non-empty string. -/
def userKeysConfig (profile : Profile) : GoMap GoVal :=
  let config : GoMap GoVal := []
  let config := if profile.user.name ≠ [] then
    goUpsert config (str "user.name") (GoVal.vstr profile.user.name) else config
  let config := if profile.user.email ≠ [] then
    goUpsert config (str "user.email") (GoVal.vstr profile.user.email) else config
  let config := if profile.user.signingKey ≠ [] then
    goUpsert config (str "user.signingkey") (GoVal.vstr profile.user.signingKey)
    else config
  config

/-- The URL-rewrites block of `profileToGitConfig`. -/
def urlKeysConfig (profile : Profile) (config : GoMap GoVal) : GoMap GoVal :=
  profile.url.foldl
    (fun cfg url =>
      goUpsert cfg (str "url \"" ++ url.pattern ++ str "\".insteadOf")
        (GoVal.vstr url.insteadOf))
    config

/-- `profileToGitConfig`: user keys, URL rewrites, then the fourteen
sections, in source order. -/
def profileToGitConfig (profile : Profile) : GoMap GoVal :=
  let config := userKeysConfig profile
  let config := urlKeysConfig profile config
  let config := addSectionToConfig config (str "http") profile.http
  let config := addSectionToConfig config (str "core") profile.core
  let config := addSectionToConfig config (str "interactive") profile.interactive
  let config := addSectionToConfig config (str "add") profile.add
  let config := addSectionToConfig config (str "delta") profile.delta
  let config := addSectionToConfig config (str "push") profile.push
  let config := addSectionToConfig config (str "merge") profile.merge
  let config := addSectionToConfig config (str "commit") profile.commit
  let config := addSectionToConfig config (str "gpg") profile.gpg
  let config := addSectionToConfig config (str "pull") profile.pull
  let config := addSectionToConfig config (str "rerere") profile.rerere
  let config := addSectionToConfig config (str "column") profile.column
  let config := addSectionToConfig config (str "branch") profile.branch
  let config := addSectionToConfig config (str "init") profile.init
  config

theorem goHasPref_append (x y : Str) : goHasPref (x ++ y) x = true := by
  induction x with
  | nil => cases y <;> rfl
  | cons c t ih => simp [goHasPref, ih]

theorem goHasPref_of_append (s x y : Str) (h : goHasPref s (x ++ y) = true) :
    goHasPref s x = true := by
  induction x generalizing s with
  | nil => cases s <;> rfl
  | cons c t ih =>
    cases s with
    | nil => simp [goHasPref] at h
    | cons d s' =>
      simp only [List.cons_append, goHasPref, Bool.and_eq_true] at h ⊢
      exact ⟨h.1, ih s' h.2⟩

theorem goHasPref_iff_take (p s : Str) :
    goHasPref s p = true ↔ s.take p.length = p := by
  induction p generalizing s with
  | nil => simp [goHasPref]
  | cons d p' ih =>
    cases s with
    | nil => simp [goHasPref]
    | cons c s' =>
      simp only [goHasPref, Bool.and_eq_true, List.length_cons, List.take_succ_cons,
        List.cons.injEq, decide_eq_true_eq]
      rw [ih s']

theorem goHasPref_total (k a b : Str) (ha : goHasPref k a = true)
    (hb : goHasPref k b = true) (hl : a.length ≤ b.length) :
    goHasPref b a = true := by
  rw [goHasPref_iff_take] at ha hb ⊢
  rw [← hb, List.take_take, Nat.min_eq_left hl, ha]

/-- Two prefixes, neither extending the other, cannot both head a string. -/
theorem goHasPref_incomp (k a b : Str) (ha : goHasPref k a = true)
    (h1 : goHasPref a b = false) (h2 : goHasPref b a = false) :
    goHasPref k b = false := by
  cases hb : goHasPref k b with
  | false => rfl
  | true =>
    rcases Nat.le_total a.length b.length with hl | hl
    · exact absurd (goHasPref_total k a b ha hb hl) (by rw [h2]; simp)
    · exact absurd (goHasPref_total k b a hb ha hl) (by rw [h1]; simp)

/-- Keys written by `addSectionToConfigRecursive` all extend its key
argument by a dot; lookups of other keys are unaffected. -/
theorem addRec_lookup (cfg : GoMap GoVal) (pfx : Str) (vs : GoMap GoVal) (k : Str)
    (h : goHasPref k (pfx ++ str ".") = false) :
    lookupGo (addSectionToConfigRecursive cfg pfx vs) k = lookupGo cfg k := by
  induction cfg, pfx, vs using addSectionToConfigRecursive.induct generalizing k with
  | case1 config pfx => rw [addSectionToConfigRecursive]
  | case2 config pfx k0 m rest ih1 ih2 =>
    rw [addSectionToConfigRecursive]
    rw [ih2 k h]
    refine ih1 k ?_
    cases hin : goHasPref k (pfx ++ str "." ++ k0 ++ str ".") with
    | false => rfl
    | true =>
      have : goHasPref k (pfx ++ str ".") = true := by
        have h2 := goHasPref_of_append k ((pfx ++ str ".") ++ k0) (str ".") (by
          rw [show ((pfx ++ str ".") ++ k0) ++ str "." =
            pfx ++ str "." ++ k0 ++ str "." from by simp [List.append_assoc]]
          exact hin)
        exact goHasPref_of_append k (pfx ++ str ".") k0 h2
      rw [this] at h
      cases h
  | case3 config pfx k0 v rest hnm ih =>
    rw [addSectionToConfigRecursive]
    rw [ih k h, lookupGo_goUpsert]
    have : ¬ (pfx ++ str "." ++ k0 = k) := by
      intro he
      have : goHasPref k (pfx ++ str ".") = true := by
        rw [← he, show pfx ++ str "." ++ k0 = (pfx ++ str ".") ++ k0 from rfl]
        exact goHasPref_append (pfx ++ str ".") k0
      rw [this] at h
      cases h
    rw [if_neg this]
    exact hnm

theorem urlKey_ne (pat k : Str) (hk : goHasPref k (str "url \"") = false) :
    ¬ (str "url \"" ++ pat ++ str "\".insteadOf" = k) := by
  intro he
  have h1 : goHasPref (str "url \"" ++ pat ++ str "\".insteadOf") (str "url \"") = true := by
    rw [show str "url \"" ++ pat ++ str "\".insteadOf" =
      (str "url \"" ++ pat) ++ str "\".insteadOf" from rfl]
    exact goHasPref_of_append _ (str "url \"") pat
      (goHasPref_append (str "url \"" ++ pat) (str "\".insteadOf"))
  rw [he, hk] at h1
  cases h1

theorem urlKeysConfig_lookup (p : Profile) (cfg : GoMap GoVal) (k : Str)
    (hk : goHasPref k (str "url \"") = false) :
    lookupGo (urlKeysConfig p cfg) k = lookupGo cfg k := by
  rw [urlKeysConfig]
  induction p.url generalizing cfg with
  | nil => rfl
  | cons u t ih =>
    simp only [List.foldl_cons]
    rw [ih, lookupGo_goUpsert, if_neg (urlKey_ne u.pattern k hk)]

/-- Looking up a key that extends none of the written prefixes reads through
the whole of `profileToGitConfig` to the user block. -/
theorem profileToGitConfig_reduce (p : Profile) (k : Str)
    (hk : goHasPref k (str "url \"") = false)
    (hsec : ∀ sec ∈ [str "http", str "core", str "interactive", str "add",
        str "delta", str "push", str "merge", str "commit", str "gpg",
        str "pull", str "rerere", str "column", str "branch", str "init"],
      goHasPref k (sec ++ str ".") = false) :
    lookupGo (profileToGitConfig p) k = lookupGo (userKeysConfig p) k := by
  simp only [profileToGitConfig, addSectionToConfig]
  rw [addRec_lookup _ _ _ _ (hsec (str "init") (by decide)),
    addRec_lookup _ _ _ _ (hsec (str "branch") (by decide)),
    addRec_lookup _ _ _ _ (hsec (str "column") (by decide)),
    addRec_lookup _ _ _ _ (hsec (str "rerere") (by decide)),
    addRec_lookup _ _ _ _ (hsec (str "pull") (by decide)),
    addRec_lookup _ _ _ _ (hsec (str "gpg") (by decide)),
    addRec_lookup _ _ _ _ (hsec (str "commit") (by decide)),
    addRec_lookup _ _ _ _ (hsec (str "merge") (by decide)),
    addRec_lookup _ _ _ _ (hsec (str "push") (by decide)),
    addRec_lookup _ _ _ _ (hsec (str "delta") (by decide)),
    addRec_lookup _ _ _ _ (hsec (str "add") (by decide)),
    addRec_lookup _ _ _ _ (hsec (str "interactive") (by decide)),
    addRec_lookup _ _ _ _ (hsec (str "core") (by decide)),
    addRec_lookup _ _ _ _ (hsec (str "http") (by decide))]
  exact urlKeysConfig_lookup p (userKeysConfig p) k hk

/-- C10: in the flattened git-config mapping, each of `user.name`,
`user.email`, `user.signingkey` is present (with the field as its value)
exactly when the corresponding `User` field is a non-empty string; a profile
whose `User` fields are all empty contributes no `user.*` key at all. -/
theorem profileToGitConfig_user_keys (p : Profile) :
    (lookupGo (profileToGitConfig p) (str "user.name") =
      if p.user.name ≠ [] then some (GoVal.vstr p.user.name) else none) ∧
    (lookupGo (profileToGitConfig p) (str "user.email") =
      if p.user.email ≠ [] then some (GoVal.vstr p.user.email) else none) ∧
    (lookupGo (profileToGitConfig p) (str "user.signingkey") =
      if p.user.signingKey ≠ [] then some (GoVal.vstr p.user.signingKey) else none) ∧
    (p.user.name = [] → p.user.email = [] → p.user.signingKey = [] →
      ∀ k, goHasPref k (str "user.") = true →
        lookupGo (profileToGitConfig p) k = none) := by
  refine ⟨?_, ?_, ?_, ?_⟩
  · rw [profileToGitConfig_reduce p (str "user.name") (by decide) (by decide)]
    rw [userKeysConfig]
    by_cases h1 : p.user.name = [] <;> by_cases h2 : p.user.email = [] <;>
      by_cases h3 : p.user.signingKey = [] <;>
      simp [h1, h2, h3, lookupGo_goUpsert, lookupGo, str]
  · rw [profileToGitConfig_reduce p (str "user.email") (by decide) (by decide)]
    rw [userKeysConfig]
    by_cases h1 : p.user.name = [] <;> by_cases h2 : p.user.email = [] <;>
      by_cases h3 : p.user.signingKey = [] <;>
      simp [h1, h2, h3, lookupGo_goUpsert, lookupGo, str]
  · rw [profileToGitConfig_reduce p (str "user.signingkey") (by decide) (by decide)]
    rw [userKeysConfig]
    by_cases h1 : p.user.name = [] <;> by_cases h2 : p.user.email = [] <;>
      by_cases h3 : p.user.signingKey = [] <;>
      simp [h1, h2, h3, lookupGo_goUpsert, lookupGo, str]
  · intro h1 h2 h3 k hk
    have hkurl : goHasPref k (str "url \"") = false :=
      goHasPref_incomp k (str "user.") (str "url \"") hk (by decide) (by decide)
    have hksec : ∀ sec ∈ [str "http", str "core", str "interactive", str "add",
        str "delta", str "push", str "merge", str "commit", str "gpg",
        str "pull", str "rerere", str "column", str "branch", str "init"],
        goHasPref k (sec ++ str ".") = false := by
      intro sec hm
      fin_cases hm <;>
        exact goHasPref_incomp k (str "user.") _ hk (by decide) (by decide)
    rw [profileToGitConfig_reduce p k hkurl hksec]
    simp [userKeysConfig, h1, h2, h3, lookupGo]

/-- Witness for C10: a profile with all `User` fields empty yields no
`user.name` entry. -/
theorem profileToGitConfig_user_keys_witness :
    lookupGo (profileToGitConfig ({} : Profile)) (str "user.name") = none :=
  (profileToGitConfig_user_keys {}).2.2.2 rfl rfl rfl (str "user.name") (by decide)
